import Mathlib

/-!
Verification of the musicNet ingestion/staging/query pipeline
(`musicNet/__init__.py`) against its natural-language specification.

Each Python function relevant to the claims is shallowly embedded as an
executable Lean definition, translated directly from the source:

* `signedModulo`      — `_signedModulo` (lines 183-191); the `while` loop is
  given explicit fuel because the source diverges for `mod <= 0`.
* `Moment`, `Moment.addComponents`, `addMomentsToScore` — the sweep-line
  Moment construction (lines 110-161, 2090-2123).
* `simulOuter` / `noteSimulEdges` — the pairwise-interval emission of the
  `addCrossPartRelationships` callback (lines 859-887).

Score positions and durations (`offset`, `quarterLength`) are exact
numbers in the source (music21 quarter-length values); the embedding is
parametric over a linearly ordered additive carrier `α`, instantiated with
`Int` for concrete inputs so that evaluations reduce in the kernel.
-/

namespace MusicNet

/-- `_signedModulo` loop body (lines 189-190 of the source):
`while abs(val) >= mod: val -= mod * sign`.  Fuel models the fact that the
Python loop need not terminate when `mod <= 0`; `none` means the fuel ran
out before the loop condition failed. -/
def signedModuloLoop : Nat → Int → Int → Int → Option Int
  | 0, _, _, _ => none
  | fuel + 1, val, mod, sign =>
    if mod ≤ |val| then signedModuloLoop fuel (val - mod * sign) mod sign
    else some val

/-- `_signedModulo(val, mod)` (lines 183-191): returns `0` for `val == 0`,
otherwise runs the subtraction loop with `sign = val / abs(val)`. -/
def signedModulo (val mod : Int) : Option Int :=
  if val = 0 then some 0
  else signedModuloLoop (val.natAbs + 1) val mod (val / |val|)

/-- A leaf (`music21` Note) as the sweep and the relationship callbacks see
it: an identity, the offset of its enclosing measure inside the score, its
own `offset` attribute (measure-relative), its `quarterLength`, and its
`midi` pitch. -/
structure MNote (α : Type) where
  nid : Nat
  measureOffset : α
  noteOffset : α
  quarterLength : α
  midi : Int
deriving DecidableEq, Repr

section Sweep

variable {α : Type} [LinearOrder α] [Add α]

/-- The absolute onset position of a note, as accumulated by
`addNotesFromStream` (lines 163-181): stream offsets summed down to the
leaf. -/
def attackOffsetOf (n : MNote α) : α :=
  n.measureOffset + n.noteOffset

/-- `weakref.WeakSet.add`: set-semantics insertion into the list that
models the set (insertion order retained, duplicates dropped). -/
def wsAdd (l : List (MNote α)) (c : MNote α) : List (MNote α) :=
  if c ∈ l then l else l ++ [c]

/-- The `Moment` object (lines 2090-2093): its own `offset` and the two
`WeakSet` attributes `sameOffset` and `simultaneous`. -/
structure Moment (α : Type) where
  offset : α
  sameOffset : List (MNote α)
  simultaneous : List (MNote α)
deriving DecidableEq, Repr

/-- `Moment.addComponents` (lines 2103-2123), translated branch for branch.
Note that the source adds to `self.sameOffset` in BOTH the
`sameOffset == True` and the `sameOffset == False` branch (lines 2114-2117);
only the unspecified branch ever touches `self.simultaneous`. -/
def Moment.addComponents (m : Moment α) (c : MNote α) (sameOffset : Option Bool) :
    Moment α :=
  match sameOffset with
  | some true => { m with sameOffset := wsAdd m.sameOffset c }
  | some false => { m with sameOffset := wsAdd m.sameOffset c }
  | none =>
    if attackOffsetOf c = m.offset then
      { m with sameOffset := wsAdd m.sameOffset c }
    else
      { m with simultaneous := wsAdd m.simultaneous c }

/-- Association-list update used to model `attackLookup[offset].add(obj)`
(lines 177-181): append the note to the entry for this offset, creating the
entry if missing. -/
def alAddNote (al : List (α × List (MNote α))) (t : α) (n : MNote α) :
    List (α × List (MNote α)) :=
  match al with
  | [] => [(t, [n])]
  | (r, s) :: rest =>
    if r = t then (r, wsAdd s n) :: rest else (r, s) :: alAddNote rest t n

/-- `addNotesFromStream` over the whole score: group the leaves by absolute
attack offset, preserving traversal order. -/
def buildAttackLookup (notes : List (MNote α)) : List (α × List (MNote α)) :=
  notes.foldl (fun al n => alAddNote al (attackOffsetOf n) n) []

/-- Dictionary read `lookup[t]` on the association list. -/
def alGet (al : List (α × List (MNote α))) (t : α) : List (MNote α) :=
  match al with
  | [] => []
  | (r, s) :: rest => if r = t then s else alGet rest t

/-- `del lookup[r]` on the association list. -/
def alErase (al : List (α × List (MNote α))) (r : α) : List (α × List (MNote α)) :=
  al.filter (fun p => p.1 ≠ r)

/-- `lookup[r].add(n)` on an existing entry. -/
def alUpdate (al : List (α × List (MNote α))) (r : α) (n : MNote α) :
    List (α × List (MNote α)) :=
  al.map (fun p => if p.1 = r then (p.1, wsAdd p.2 n) else p)

/-- Sorted insertion, modelling `heapq.heappush` on the release-offset
min-heap (the model keeps the heap as a sorted list). -/
def insertSorted (x : α) : List α → List α
  | [] => [x]
  | y :: ys => if x ≤ y then x :: y :: ys else y :: insertSorted x ys

/-- `attackOffsets.sort()` (line 136). -/
def sortOffsets (l : List α) : List α :=
  l.foldr insertSorted []

/-- Lines 144-146: `while releaseOffsets and releaseOffsets[0] <= offset:`
pop the heap minimum and delete its lookup entry. -/
def expireReleases (t : α) :
    List α → List (α × List (MNote α)) → List α × List (α × List (MNote α))
  | [], rl => ([], rl)
  | r :: rest, rl =>
    if r ≤ t then expireReleases t rest (alErase rl r) else (r :: rest, rl)

/-- Lines 147-150: every note still in the release map is added to the new
Moment with `sameOffset=False`. -/
def addSustained (m : Moment α) (ro : List α) (rl : List (α × List (MNote α))) :
    Moment α :=
  ro.foldl (fun m r => (alGet rl r).foldl
    (fun m n => m.addComponents n (some false)) m) m

/-- Lines 152-160: each note onsetting at `t` is added with
`sameOffset=True`, and its release position `t + quarterLength` is pushed
into the heap (a fresh `WeakSet` is created when the release position is
new, and the note is always added to the release map entry). -/
def addOnsets (t : α) (notes : List (MNote α))
    (m : Moment α) (ro : List α) (rl : List (α × List (MNote α))) :
    Moment α × List α × List (α × List (MNote α)) :=
  notes.foldl (fun acc note =>
    let m := acc.1
    let ro := acc.2.1
    let rl := acc.2.2
    let m := m.addComponents note (some true)
    let rel := t + note.quarterLength
    let roRl :=
      if rel ∈ ro then (ro, rl) else (insertSorted rel ro, rl ++ [(rel, [])])
    (m, roRl.1, alUpdate roRl.2 rel note)) (m, ro, rl)

/-- One iteration of the sweep loop (lines 141-161) at attack offset `t`. -/
def sweepStep (al : List (α × List (MNote α)))
    (acc : List (Moment α) × List α × List (α × List (MNote α))) (t : α) :
    List (Moment α) × List α × List (α × List (MNote α)) :=
  let roRl := expireReleases t acc.2.1 acc.2.2
  let m := addSustained ⟨t, [], []⟩ roRl.1 roRl.2
  let step := addOnsets t (alGet al t) m roRl.1 roRl.2
  (acc.1 ++ [step.1], step.2.1, step.2.2)

/-- `addMomentsToScore` (lines 110-161): group leaves by attack offset,
iterate the offsets ascending, and build one Moment per offset. -/
def addMomentsToScore (notes : List (MNote α)) : List (Moment α) :=
  let al := buildAttackLookup notes
  let offs := sortOffsets (al.map Prod.fst)
  (offs.foldl (sweepStep al) ([], [], [])).1

/-- Folding a sequence of `addComponents` calls into a Moment, for stating
properties about arbitrary call sequences. -/
def applyComponents (m : Moment α) (calls : List (MNote α × Option Bool)) : Moment α :=
  calls.foldl (fun m p => m.addComponents p.1 p.2) m

/-- A `NoteSimultaneousWithNote` relationship as staged by
`addCrossPartRelationships` (lines 879-886): endpoints in emission order
and the three edge properties.  The source stores the `sameOffset`
property as the STRING `'True'`/`'False'`. -/
structure SimulEdge (α : Type) where
  note1 : MNote α
  note2 : MNote α
  harmonicInterval : Int
  simpleHarmonicInterval : Option Int
  sameOffset : String
deriving DecidableEq, Repr

/-- Lines 879-886: `cInt = abs(note1.midi - note2.midi)`,
`sInt = abs(_signedModulo(note1.midi - note2.midi, 12))`, and the
`sameOffset` property is `'True'` exactly when `note1.offset ==
note2.offset` — the measure-relative `offset` attributes, not the
absolute score positions. -/
def mkSimulEdge (n1 n2 : MNote α) : SimulEdge α :=
  { note1 := n1, note2 := n2,
    harmonicInterval := |n1.midi - n2.midi|,
    simpleHarmonicInterval := (signedModulo (n1.midi - n2.midi) 12).map (fun r => |r|),
    sameOffset := if n1.noteOffset = n2.noteOffset then "True" else "False" }

/-- Two staged pairwise edges connect the same unordered pair of leaves. -/
def sameUnorderedPair (e1 e2 : SimulEdge α) : Prop :=
  (e1.note1 = e2.note1 ∧ e1.note2 = e2.note2) ∨
  (e1.note1 = e2.note2 ∧ e1.note2 = e2.note1)

/-- Inner loop `for j in range(i + 1, len(notes))` of
`addCrossPartRelationships` (lines 870-886).  The dict-of-dicts `simuls`
is modelled as the list of ordered pairs recorded so far: a pair is
skipped when it was already recorded in either orientation, exactly as
the source's two membership tests do. -/
def simulInner (n1 : MNote α) :
    List (MNote α) → List (MNote α × MNote α) →
    List (SimulEdge α) × List (MNote α × MNote α)
  | [], seen => ([], seen)
  | n2 :: rest, seen =>
    if (n1, n2) ∈ seen ∨ (n2, n1) ∈ seen then simulInner n1 rest seen
    else
      let r := simulInner n1 rest ((n1, n2) :: seen)
      (mkSimulEdge n1 n2 :: r.1, r.2)

/-- Outer loop `for i in range(len(notes) - 1)` of
`addCrossPartRelationships` (lines 868-886), threading the seen-pairs
record through. -/
def simulOuter : List (MNote α) → List (MNote α × MNote α) → List (SimulEdge α)
  | [], _ => []
  | n1 :: rest, seen =>
    let r := simulInner n1 rest seen
    r.1 ++ simulOuter rest r.2

/-- The pairwise edges one invocation of `addCrossPartRelationships` emits
for one Moment: `notes = sameOffset + simultaneous` (line 866) ranged over
with a FRESH `simuls = {}` record (line 867). -/
def noteSimulEdges (m : Moment α) : List (SimulEdge α) :=
  simulOuter (m.sameOffset ++ m.simultaneous) []

/-- All pairwise edges staged across one score ingestion: the callback
runs once per Moment node, each run starting from an empty seen-pairs
record. -/
def allMomentEdges (ms : List (Moment α)) : List (SimulEdge α) :=
  (ms.map noteSimulEdges).flatten

end Sweep

/-! ### Extraction callback dispatch (`Database._extractNodes` and friends) -/

/-- A source-tree object as the extractor sees it: identity, class name
(`__class__.__name__`) and the music21 `classes` tuple. -/
structure SrcObj where
  oid : Nat
  kind : String
  classes : List String

/-- A property callback: receives the visited object and returns `None`
(continue) or a value; the designated sentinel is `HIDEFROMDATABASE = 1`
(line 381).  Callback returns are modelled as integers since the sentinel
comparison in `_addNode` is `== 1`. -/
abbrev Callback := SrcObj → Option Int

/-- `Database.HIDEFROMDATABASE = 1` (line 381). -/
def HIDEFROMDATABASE : Int := 1

/-- The source tree walked by `_extractNodes`. -/
inductive MTree where
  | node : SrcObj → List MTree → MTree

/-- `self._callbacks[kind]` on the registry, empty when unregistered. -/
def lookupCbs : List (String × List Callback) → String → List Callback
  | [], _ => []
  | (k, l) :: rest, key => if k = key then l else lookupCbs rest key

/-- Lines 1042-1045: `for callback in self._callbacks[kind]: rc =
callback(...); if rc != None: return rc` — the first non-null return is
returned at once. -/
def firstSome : List Callback → SrcObj → Option Int
  | [], _ => none
  | c :: rest, obj =>
    match c obj with
    | some v => some v
    | none => firstSome rest obj

/-- Lines 1039-1045: iterate the resolved kinds in order, returning the
first non-null callback result. -/
def runKinds (cbs : List (String × List Callback)) :
    List String → SrcObj → Option Int
  | [], _ => none
  | k :: ks, obj =>
    match firstSome (lookupCbs cbs k) obj with
    | some v => some v
    | none => runKinds cbs ks obj

/-- `Database._runCallbacks` (lines 1029-1045), `classes` branch:
`kinds = [x for x in node.classes if x in keys]`, then dispatch. -/
def runCallbacks (cbs : List (String × List Callback)) (obj : SrcObj) : Option Int :=
  let keys := cbs.map Prod.fst
  runKinds cbs (obj.classes.filter (fun c => keys.contains c)) obj

/-- The `"<Type>In<ParentType>"` parent edge `_addNode` stages
(lines 1009-1011), keyed here by object identities. -/
def mkParentEdge (parent : Option Nat) (obj : SrcObj) : List (Nat × Nat) :=
  match parent with
  | some p => [(obj.oid, p)]
  | none => []

/-- `Database._addNode` (lines 995-1015): run the callbacks; a return
equal to `HIDEFROMDATABASE` (and only that value) suppresses the node
(`none`); otherwise the vertex and the parent edge are staged. -/
def addNode (cbs : List (String × List Callback)) (parent : Option Nat)
    (obj : SrcObj) : Option (List Nat × List (Nat × Nat)) :=
  if runCallbacks cbs obj = some HIDEFROMDATABASE then none
  else some ([obj.oid], mkParentEdge parent obj)

mutual

/-- `Database._extractNodes` (lines 970-993): stage the node via
`_addNode`; stop if it was hidden; do not recurse below Spanners and
Moments; otherwise visit the children in order with this node as parent.
Returns the staged vertex identities and parent edges in traversal
order. -/
def extractNodes (cbs : List (String × List Callback)) (parent : Option Nat) :
    MTree → List Nat × List (Nat × Nat)
  | .node obj children =>
    match addNode cbs parent obj with
    | none => ([], [])
    | some own =>
      if "Spanner" ∈ obj.classes ∨ obj.kind = "Moment" then own
      else
        let rest := extractChildNodes cbs (some obj.oid) children
        (own.1 ++ rest.1, own.2 ++ rest.2)

/-- The `for item in itemList: self._extractNodes(item, objNode)` loop of
`_extractNodes` (lines 990-993). -/
def extractChildNodes (cbs : List (String × List Callback)) (parent : Option Nat) :
    List MTree → List Nat × List (Nat × Nat)
  | [] => ([], [])
  | t :: ts =>
    let r := extractNodes cbs parent t
    let rs := extractChildNodes cbs parent ts
    (r.1 ++ rs.1, r.2 ++ rs.2)

end

/-! ### Reconstruction sibling fill (`Query._addHierarchicalNodes`) -/

/-- A remote-store vertex as the sibling-fill and rebuild phases see it:
remote identity, `type` property, the target of this vertex's own
`"<Type>In<ParentType>"` edge when one exists (a Measure's
`MeasureInPart` part, a Part's `PartInScore` score — the reconstruction
walks exactly these child-to-parent edges), and its `number`
property. -/
structure StoreVertex where
  vid : Nat
  vtype : String
  inParent : Option Nat
  number : Int
deriving DecidableEq, Repr

/-- Python `range(a, b)`. -/
def intRange (a b : Int) : List Int :=
  (List.range (b - a).toNat).map (fun (i : Nat) => a + (i : Int))

/-- Python `min(list)`; the source raises on an empty list, modelled by
the default `0`. -/
def listMin : List Int → Int
  | [] => 0
  | x :: xs => xs.foldl min x

/-- Python `max(list)`; the source raises on an empty list, modelled by
the default `0`. -/
def listMax : List Int → Int
  | [] => 0
  | x :: xs => xs.foldl max x

/-- Lines 1757-1758: the `number` properties of the Measure vertices in
the working set. -/
def matchedMeasureNumbers (ws : List StoreVertex) : List Int :=
  (ws.filter (fun v => v.vtype == "Measure")).map (fun v => v.number)

/-- The store vertices matching one `MeasureInPart` clause of the fill
query filtered on its `number` comparison (lines 1774-1777): Measures
attached to the given part and carrying the given number. -/
def clauseMatches (store : List StoreVertex) (p : Nat) (n : Int) : List StoreVertex :=
  store.filter (fun v => v.vtype == "Measure" && v.inParent == some p && v.number == n)

/-- The (part, number) combinations for which the nested loops of
lines 1769-1777 add one non-optional `MeasureInPart` clause to the fill
query. -/
def partNumberClauses (parts : List Nat) (numbers : List Int) : List (Nat × Int) :=
  (parts.map (fun p => numbers.map (fun n => (p, n)))).flatten

/-- The first result row of the single conjunctive fill query
(lines 1764-1779): all `MeasureInPart` clauses are non-optional and
conjoined in one `match`, so the join is all-or-nothing — when any
clause matches nothing the query returns zero rows, modelled as `none`
(the subsequent `subresults[0]` raises IndexError and nothing is
merged); otherwise the row binds one matching measure per clause
(modelled as the store's first match; when at most one measure exists
per (part, number) this is exact). -/
def fillQueryRow (store : List StoreVertex) :
    List (Nat × Int) → Option (List StoreVertex)
  | [] => some []
  | (p, n) :: rest =>
    match (clauseMatches store p n).head?, fillQueryRow store rest with
    | some v, some row => some (v :: row)
    | _, _ => none

/-- The fill query's row over every (part, number) combination in the
requested range, or `none` when the conjunctive match fails. -/
def fillMeasureQuery (store : List StoreVertex) (parts : List Nat)
    (numbers : List Int) : Option (List StoreVertex) :=
  fillQueryRow store (partNumberClauses parts numbers)

/-- `Query._filterNodesAndRelationships` (lines 1803-1811) restricted to
vertices: merge results into the working set, deduplicating by remote
identity (`if _id(item) not in nodes`). -/
def filterNodesAndRelationships (nodes : List StoreVertex)
    (results : List StoreVertex) : List StoreVertex :=
  results.foldl (fun acc v =>
    if acc.any (fun w => w.vid == v.vid) then acc else acc ++ [v]) nodes

/-- The sibling-fill phase of `Query._addHierarchicalNodes`
(lines 1757-1779): compute `measureRange = range(min(measureNumbers),
max(measureNumbers) + 1)` over the matched measures, run the single
conjunctive fill query over every (part, number) combination in that
range, and merge the returned row into the working set; `none` models
the query matching nothing, in which case the source raises IndexError
on `subresults[0]` and merges nothing. -/
def siblingFill (store : List StoreVertex) (ws : List StoreVertex)
    (parts : List Nat) : Option (List StoreVertex) :=
  let numbers := matchedMeasureNumbers ws
  let rng := intRange (listMin numbers) (listMax numbers + 1)
  match fillMeasureQuery store parts rng with
  | none => none
  | some row => some (filterNodesAndRelationships ws row)

/-- The typed rebuild walk of `_addHierarchicalMusic21Data`
(lines 1824-1843) over a working set, fuel-bounded: below a rebuilt
parent, every working-set vertex whose `"<Type>In<ParentType>"` edge
targets that parent is constructed and inserted (the `MeasureInPart` and
`PartInScore` construction callbacks return the child object), and its
own children are then rebuilt below it.  Returns the identities of the
vertices appearing in the rebuilt tree under the parent. -/
def rebuildFrom (ws : List StoreVertex) : Nat → Nat → List Nat
  | 0, _ => []
  | fuel + 1, parentId =>
    ((ws.filter (fun v => v.inParent == some parentId)).map
      (fun c => c.vid :: rebuildFrom ws fuel c.vid)).flatten

/-- The identities appearing in the tree rebuilt from the root vertex;
the fuel `ws.length + 1` dominates the depth of any working set. -/
def rebuiltTreeIds (ws : List StoreVertex) (rootId : Nat) : List Nat :=
  rootId :: rebuildFrom ws (ws.length + 1) rootId

/-! ### Edge commit (`Database._writeEdgesToDatabase`) -/

/-- A staged edge row of the `NodeFarm.edges` table: endpoint identity
hashes and the relationship type. -/
structure StagedEdge where
  startNodeHash : Nat
  relationship : String
  endNodeHash : Nat
deriving DecidableEq, Repr

/-- `self.nodeRefs[hash]` — the id-to-remote-reference map built by
`_writeNodesToDatabase`; `none` models a `KeyError`. -/
def lookupRef : List (Nat × Nat) → Nat → Option Nat
  | [], _ => none
  | (k, v) :: rest, key => if k = key then some v else lookupRef rest key

/-- Lines 1134-1141: convert one batch of staged edges to remote edge
references; a missing endpoint raises (`.error`), aborting the batch
before anything is submitted. -/
def buildBatch (nodeRefs : List (Nat × Nat)) :
    List StagedEdge → Except Unit (List (Nat × String × Nat))
  | [] => .ok []
  | e :: rest =>
    match lookupRef nodeRefs e.startNodeHash, lookupRef nodeRefs e.endNodeHash with
    | some r1, some r2 =>
      match buildBatch nodeRefs rest with
      | .ok l => .ok ((r1, e.relationship, r2) :: l)
      | .error u => .error u
    | _, _ => .error ()

/-- `NodeFarm.getEdgeBatch` (lines 354-358): `SELECT * FROM edges WHERE
ROWID >= startIdx LIMIT limit`.  ROWIDs are 1-based, so the batch begins
at list position `startIdx - 1` (position `0` when `startIdx = 0`). -/
def getEdgeBatch (edges : List StagedEdge) (startIdx limit : Nat) : List StagedEdge :=
  (edges.drop (startIdx - 1)).take limit

/-- The `while True` batch loop of `_writeEdgesToDatabase`
(lines 1128-1144), with `idx += batchSize` and `batchSize = 100`.  The
result is the list of batches submitted to the remote store and whether a
`KeyError` was raised; a raised batch is never submitted, and the loop
stops there. -/
def writeLoop (nodeRefs : List (Nat × Nat)) (edges : List StagedEdge) :
    Nat → Nat → List (List (Nat × String × Nat)) × Bool
  | 0, _ => ([], false)
  | fuel + 1, idx =>
    let subset := getEdgeBatch edges idx 100
    if subset.isEmpty then ([], false)
    else
      match buildBatch nodeRefs subset with
      | .error _ => ([], true)
      | .ok batch =>
        let rest := writeLoop nodeRefs edges fuel (idx + 100)
        (batch :: rest.1, rest.2)

/-- `Database._writeEdgesToDatabase` (lines 1118-1148).  The fuel
`edges.length + 1` dominates the number of loop iterations (each
iteration advances `idx` by 100). -/
def writeEdgesToDatabase (nodeRefs : List (Nat × Nat)) (edges : List StagedEdge) :
    List (List (Nat × String × Nat)) × Bool :=
  writeLoop nodeRefs edges (edges.length + 1) 0

/-! ### Query pattern compilation (`Query._assemblePattern` and mutators) -/

/-- A comparison-filter operand (`Filter.__repr__`, lines 2047-2055):
strings are quoted, numbers left bare, property references rendered as
their dotted name. -/
inductive FVal where
  | str : String → FVal
  | num : Int → FVal
  | prop : String → FVal
deriving DecidableEq, Repr

/-- `str(operand)` per `Filter.__repr__`. -/
def FVal.render : FVal → String
  | .str s => "\"" ++ s ++ "\""
  | .num n => toString n
  | .prop p => p

/-- A `Filter` entity: `pre` is the rendered left operand (in the source a
`Property`, rendered bare), `op` the comparison operator, `post` the right
operand.  Equality of filters in the source (`Entity.__eq__`) compares
these fields. -/
structure QFilter where
  pre : String
  op : String
  post : FVal
deriving DecidableEq, Repr

/-- `Filter.__repr__` (lines 2047-2055). -/
def QFilter.render (f : QFilter) : String :=
  f.pre ++ " " ++ f.op ++ " " ++ f.post.render

/-- `sep.flatten(list)`. -/
def joinSep (sep : String) : List String → String
  | [] => ""
  | [x] => x
  | x :: xs => x ++ sep ++ joinSep sep xs

/-- `set(props)` in `_assemblePattern` (line 1723): deduplication; Python
set iteration order is unspecified, modelled as first-occurrence order. -/
def setDedupAcc (acc : List String) (l : List String) : List String :=
  l.foldl (fun acc s => if s ∈ acc then acc else acc ++ [s]) acc

/-- Deduplicate keeping the first occurrence of each element. -/
def setDedup (l : List String) : List String :=
  setDedupAcc [] l

/-- The `Query` compilation state: anchor text (`self.start`), order-by
text (`self.order`, set together with the anchor), rendered relationship
patterns (`self.match`), filters (`self.where`), rendered return
properties (`self.returns`), the `limitReturnToWhere` flag, and the
cached compiled pattern (`self.pattern`). -/
structure QueryState where
  start : Option String
  order : String
  matchL : List String
  whereL : List QFilter
  returnsL : List String
  limitReturnToWhere : Bool
  pattern : Option String

/-- The `matchStr` local of `_assemblePattern` (lines 1710-1711). -/
def matchStrOf (q : QueryState) : String :=
  if q.matchL.isEmpty then "" else "match\n" ++ joinSep ",\n" q.matchL ++ "\n"

/-- The `whereStr` local of `_assemblePattern` (lines 1712-1713). -/
def whereStrOf (q : QueryState) : String :=
  if q.whereL.isEmpty then ""
  else "where\n" ++ joinSep "\nand " (q.whereL.map QFilter.render) ++ "\n"

/-- The `returnStr` local of `_assemblePattern` (lines 1714-1727):
the requested returns, plus `'*'` unless `limitReturnToWhere` is set,
deduplicated. -/
def returnStrOf (q : QueryState) : String :=
  "return " ++
    joinSep ", " (setDedup (q.returnsL ++ (if q.limitReturnToWhere then [] else ["*"]))) ++
    "\n"

/-- The pattern text built by the cache-miss branch of
`_assemblePattern` (lines 1709-1730), given the anchor text. -/
def buildText (startStr : String) (q : QueryState) : String :=
  startStr ++ matchStrOf q ++ whereStrOf q ++ returnStrOf q ++ q.order ++
    "skip \x7bminRow\x7d\n" ++ "limit \x7bmaxResults\x7d\n" ++ ";"

/-- `Query._assemblePattern` (lines 1700-1731): return the cached pattern
if set; exit (`none`) when no anchor was set; otherwise build the text
and cache it. -/
def assemblePattern (q : QueryState) : Option (String × QueryState) :=
  match q.pattern with
  | some p => some (p, q)
  | none =>
    match q.start with
    | none => none
    | some startStr =>
      let text := buildText startStr q
      some (text, { q with pattern := some text })

/-- `Query.addRelationship` (lines 1347-1389) as it affects compilation:
resets the cache and unconditionally appends the relationship to
`self.match`. -/
def addRelationship (q : QueryState) (rel : String) : QueryState :=
  { q with pattern := none, matchL := q.matchL ++ [rel] }

/-- `Query.addComparisonFilter` (lines 1395-1428): resets the cache and
appends the filter only when no equal filter is present
(`if filt not in self.where`). -/
def addComparisonFilter (q : QueryState) (f : QFilter) : QueryState :=
  { q with pattern := none,
           whereL := if f ∈ q.whereL then q.whereL else q.whereL ++ [f] }

/-- `Query.addReturns` (lines 1458-1482): resets the cache and appends
every given property to `self.returns`. -/
def addReturns (q : QueryState) (props : List String) : QueryState :=
  { q with pattern := none, returnsL := q.returnsL ++ props }

/-! ### Remote calls (`_serverCall`, `_cypherQuery`, `Query.results`) -/

/-- `_serverCall` (lines 238-245).  `func`'s successive invocation
outcomes are indexed by attempt number.  The `try/except
py2neo.rest.SocketError: time.sleep(0.2); continue` handler is commented
out in the source, so the `while True` body runs once: the first
invocation's outcome is returned, and a failure propagates at once. -/
def serverCall {β : Type} (func : Nat → Except String β) : Except String β :=
  func 0

/-- `_cypherQuery` (lines 193-205): submit the query text to the store
once; no retry surrounds the call. -/
def cypherQuery {β : Type} (execute : String → Except String β)
    (queryText : String) : Except String β :=
  execute queryText

/-- `Query.results` (lines 1252-1285): assemble (or reuse) the pattern and
submit it through `_cypherQuery`; a missing anchor exits before any
network call. -/
def results {β : Type} (q : QueryState) (execute : String → Except String β) :
    Except String β :=
  match assemblePattern q with
  | none => .error "setStartNode() or setStartRelationship() must be called first."
  | some (t, _) => cypherQuery execute t

/-! ## Theorems -/

/-- For nonnegative `val` and positive `mod`, the `_signedModulo` loop with
`sign = 1` terminates within any fuel exceeding `|val|` and returns the
least nonnegative residue. -/
theorem signedModuloLoop_pos (mod : Int) (hm : 0 < mod) :
    ∀ (fuel : Nat) (val : Int), 0 ≤ val → val.natAbs < fuel →
    ∃ r, signedModuloLoop fuel val mod 1 = some r ∧
      0 ≤ r ∧ r < mod ∧ mod ∣ (val - r) := by
  intro fuel
  induction fuel with
  | zero => intro val _ h; omega
  | succ f ih =>
    intro val hv hf
    by_cases hc : mod ≤ |val|
    · have habs : |val| = val := abs_of_nonneg hv
      rw [habs] at hc
      obtain ⟨r, hr, h1, h2, h3⟩ := ih (val - mod * 1) (by omega) (by omega)
      refine ⟨r, ?_, h1, h2, ?_⟩
      · simpa [signedModuloLoop, habs, hc] using hr
      · have heq : val - r = (val - mod * 1 - r) + mod := by ring
        rw [heq]
        exact dvd_add h3 (dvd_refl mod)
    · have habs : |val| = val := abs_of_nonneg hv
      rw [habs] at hc
      refine ⟨val, ?_, hv, by omega, by simp⟩
      simp [signedModuloLoop, habs, hc]

/-- For nonpositive `val` and positive `mod`, the `_signedModulo` loop with
`sign = -1` terminates within any fuel exceeding `|val|` and returns the
greatest nonpositive residue. -/
theorem signedModuloLoop_neg (mod : Int) (hm : 0 < mod) :
    ∀ (fuel : Nat) (val : Int), val ≤ 0 → val.natAbs < fuel →
    ∃ r, signedModuloLoop fuel val mod (-1) = some r ∧
      r ≤ 0 ∧ -mod < r ∧ mod ∣ (val - r) := by
  intro fuel
  induction fuel with
  | zero => intro val _ h; omega
  | succ f ih =>
    intro val hv hf
    by_cases hc : mod ≤ |val|
    · have habs : |val| = -val := abs_of_nonpos hv
      rw [habs] at hc
      obtain ⟨r, hr, h1, h2, h3⟩ := ih (val - mod * (-1)) (by omega) (by omega)
      refine ⟨r, ?_, h1, h2, ?_⟩
      · simpa [signedModuloLoop, habs, hc] using hr
      · have heq : val - r = (val - mod * (-1) - r) + -mod := by ring
        rw [heq]
        exact dvd_add h3 (Dvd.dvd.neg_right (dvd_refl mod))
    · have habs : |val| = -val := abs_of_nonpos hv
      rw [habs] at hc
      refine ⟨val, ?_, hv, by omega, by simp⟩
      simp [signedModuloLoop, habs, hc]

/-- Claim C10: for every `val` and every `mod > 0`, `_signedModulo(val,
mod)` terminates (the fuel covering the source's `while` loop suffices)
and returns a residue `r` with `|r| < mod`, congruent to `val` modulo
`mod`, with the sign of `val` (or zero); in particular
`abs(_signedModulo(d, 12))` lies in `[0, 11]` for every pitch distance. -/
theorem c10_signedModulo_spec (val mod : Int) (h : 0 < mod) :
    ∃ r, signedModulo val mod = some r ∧ mod ∣ (val - r) ∧ |r| < mod ∧
      (0 ≤ val → 0 ≤ r) ∧ (val ≤ 0 → r ≤ 0) ∧ (mod = 12 → r.natAbs ≤ 11) := by
  rcases lt_trichotomy val 0 with hv | hv | hv
  · have hsign : val / |val| = -1 := by
      obtain ⟨m, hm, rfl⟩ : ∃ m, 0 < m ∧ val = -m := ⟨-val, by omega, by ring⟩
      rw [abs_neg, abs_of_pos hm, Int.neg_ediv_of_dvd (dvd_refl m),
        Int.ediv_self (by omega)]
    obtain ⟨r, hr, h1, h2, h3⟩ :=
      signedModuloLoop_neg mod h (val.natAbs + 1) val (le_of_lt hv) (by omega)
    have habs : |r| = -r := abs_of_nonpos h1
    refine ⟨r, ?_, h3, by omega, fun hc => by omega, fun _ => h1, fun h12 => by omega⟩
    rw [signedModulo, if_neg (by omega), hsign]
    exact hr
  · subst hv
    refine ⟨0, by simp [signedModulo], by simp, by simpa using h, fun _ => le_refl 0,
      fun _ => le_refl 0, fun _ => by simp⟩
  · have hsign : val / |val| = 1 := by
      rw [abs_of_pos hv]
      exact Int.ediv_self (by omega)
    obtain ⟨r, hr, h1, h2, h3⟩ :=
      signedModuloLoop_pos mod h (val.natAbs + 1) val (le_of_lt hv) (by omega)
    have habs : |r| = r := abs_of_nonneg h1
    refine ⟨r, ?_, h3, by omega, fun _ => h1, fun hc => by omega, fun h12 => by omega⟩
    rw [signedModulo, if_neg (by omega), hsign]
    exact hr

/-- Witness for C10 at `val = -17`, `mod = 12`. -/
theorem c10_signedModulo_spec_witness :
    0 < (12 : Int) ∧
    ∃ r, signedModulo (-17) 12 = some r ∧ (12 : Int) ∣ (-17 - r) ∧ |r| < 12 ∧
      (0 ≤ (-17 : Int) → 0 ≤ r) ∧ ((-17 : Int) ≤ 0 → r ≤ 0) ∧
      ((12 : Int) = 12 → r.natAbs ≤ 11) :=
  ⟨by decide, c10_signedModulo_spec (-17) 12 (by decide)⟩

/-- Claim C1 (code bug, evaluation at the failing input): for leaves with
onsets `[0, 1, 1, 2]` and durations `[2, 1, 1, 1]`, the claim (and the
`addComponents` docstring) put the still-sounding leaf 0 into the Moment
at offset 1's `simultaneous` set; the code instead leaves `simultaneous`
empty and adds leaf 0 to `sameOffset`, because the `sameOffset=False`
branch of `Moment.addComponents` adds to `self.sameOffset` (source line
2117).  The Moments at offsets 0 and 2 match the claim. -/
theorem c1_sweep_failing_eval :
    addMomentsToScore
        [(⟨0, 0, 0, 2, 60⟩ : MNote Int), ⟨1, 0, 1, 1, 62⟩,
         ⟨2, 0, 1, 1, 64⟩, ⟨3, 0, 2, 1, 65⟩] =
      [⟨0, [⟨0, 0, 0, 2, 60⟩], []⟩,
       ⟨1, [⟨0, 0, 0, 2, 60⟩, ⟨1, 0, 1, 1, 62⟩, ⟨2, 0, 1, 1, 64⟩], []⟩,
       ⟨2, [⟨3, 0, 2, 1, 65⟩], []⟩] := by decide

/-- Counterexample for C9: a note whose absolute offset differs from the
Moment's, added first with `sameOffset` unspecified (landing in
`simultaneous`) and then with `sameOffset=True` (landing in `sameOffset`),
is a member of both sets of the same Moment. -/
theorem c9_disjointness_violated :
    (⟨0, 0, 1, 1, 60⟩ : MNote Int) ∈
        (applyComponents ⟨0, [], []⟩
          [(⟨0, 0, 1, 1, 60⟩, none), (⟨0, 0, 1, 1, 60⟩, some true)]).sameOffset ∧
      (⟨0, 0, 1, 1, 60⟩ : MNote Int) ∈
        (applyComponents ⟨0, [], []⟩
          [(⟨0, 0, 1, 1, 60⟩, none), (⟨0, 0, 1, 1, 60⟩, some true)]).simultaneous := by
  decide

/-- Membership after a `WeakSet.add`. -/
theorem mem_wsAdd {α : Type} [LinearOrder α] [Add α]
    (x c : MNote α) (l : List (MNote α)) :
    x ∈ wsAdd l c ↔ x ∈ l ∨ x = c := by
  by_cases h : c ∈ l
  · simp only [wsAdd, if_pos h]
    exact ⟨Or.inl, fun h2 => h2.elim id (fun hx => hx ▸ h)⟩
  · simp [wsAdd, if_neg h]

/-- Every `addComponents` call adds the note to exactly one of the two
sets, leaving the other untouched. -/
theorem addComponents_cases {α : Type} [LinearOrder α] [Add α]
    (m : Moment α) (c : MNote α) (b : Option Bool) :
    Moment.addComponents m c b = { m with sameOffset := wsAdd m.sameOffset c } ∨
    Moment.addComponents m c b = { m with simultaneous := wsAdd m.simultaneous c } := by
  rcases b with _ | bv
  · by_cases h : attackOffsetOf c = m.offset <;>
      simp [Moment.addComponents, h]
  · cases bv <;> simp [Moment.addComponents]

/-- Invariant for the amended C9: starting from a Moment with disjoint
sets none of whose members recur in the remaining calls, folding
pairwise-distinct `addComponents` calls keeps the sets disjoint. -/
theorem applyComponents_disjoint_aux {α : Type} [LinearOrder α] [Add α] :
    ∀ (calls : List (MNote α × Option Bool)) (m : Moment α),
      (∀ c, ¬(c ∈ m.sameOffset ∧ c ∈ m.simultaneous)) →
      (calls.map Prod.fst).Pairwise (· ≠ ·) →
      (∀ p ∈ calls, p.1 ∉ m.sameOffset ∧ p.1 ∉ m.simultaneous) →
      ∀ c, ¬(c ∈ (applyComponents m calls).sameOffset ∧
             c ∈ (applyComponents m calls).simultaneous) := by
  intro calls
  induction calls with
  | nil => intro m hdisj _ _ c; exact hdisj c
  | cons p rest ih =>
    intro m hdisj hpw hfresh c
    obtain ⟨hp1, hp2⟩ := hfresh p (List.mem_cons_self p rest)
    have hpw' : (rest.map Prod.fst).Pairwise (· ≠ ·) :=
      (List.pairwise_cons.mp (by simpa using hpw)).2
    have hhead : ∀ q ∈ rest, p.1 ≠ q.1 := by
      intro q hq
      exact (List.pairwise_cons.mp (by simpa using hpw)).1 q.1
        (List.mem_map.mpr ⟨q, hq, rfl⟩)
    have hstep : applyComponents m (p :: rest) =
        applyComponents (Moment.addComponents m p.1 p.2) rest := rfl
    rw [hstep]
    rcases addComponents_cases m p.1 p.2 with hcase | hcase <;> rw [hcase]
    · refine ih _ ?_ hpw' ?_ c
      · intro d hd
        rcases (mem_wsAdd d p.1 m.sameOffset).mp hd.1 with hmem | rfl
        · exact hdisj d ⟨hmem, hd.2⟩
        · exact hp2 hd.2
      · intro q hq
        refine ⟨?_, (hfresh q (List.mem_cons_of_mem p hq)).2⟩
        intro hmem
        rcases (mem_wsAdd q.1 p.1 m.sameOffset).mp hmem with hmem2 | heq
        · exact (hfresh q (List.mem_cons_of_mem p hq)).1 hmem2
        · exact hhead q hq heq.symm
    · refine ih _ ?_ hpw' ?_ c
      · intro d hd
        rcases (mem_wsAdd d p.1 m.simultaneous).mp hd.2 with hmem | rfl
        · exact hdisj d ⟨hd.1, hmem⟩
        · exact hp1 hd.1
      · intro q hq
        refine ⟨(hfresh q (List.mem_cons_of_mem p hq)).1, ?_⟩
        intro hmem
        rcases (mem_wsAdd q.1 p.1 m.simultaneous).mp hmem with hmem2 | heq
        · exact (hfresh q (List.mem_cons_of_mem p hq)).2 hmem2
        · exact hhead q hq heq.symm

/-- Claim C9 (amended): the two sets of a Moment built from empty by any
sequence of `addComponents` calls remain disjoint PROVIDED no leaf is
added twice to the same Moment (the sweep adds each leaf at most once per
Moment); a leaf added twice under different modes can end up in both
sets. -/
theorem c9_disjoint_when_distinct {α : Type} [LinearOrder α] [Add α]
    (calls : List (MNote α × Option Bool)) (m0 : Moment α)
    (h0s : m0.sameOffset = []) (h0t : m0.simultaneous = [])
    (hd : (calls.map Prod.fst).Pairwise (· ≠ ·)) (c : MNote α) :
    ¬(c ∈ (applyComponents m0 calls).sameOffset ∧
      c ∈ (applyComponents m0 calls).simultaneous) := by
  refine applyComponents_disjoint_aux calls m0 ?_ hd ?_ c
  · intro d hd2
    rw [h0s] at hd2
    exact absurd hd2.1 (List.not_mem_nil d)
  · intro q _
    rw [h0s, h0t]
    exact ⟨List.not_mem_nil q.1, List.not_mem_nil q.1⟩

section SimulLemmas

variable {α : Type} [LinearOrder α]

/-- The seen-pairs record after the inner loop is the record before it
with the emitted pairs pushed on. -/
theorem simulInner_seen_eq (n1 : MNote α) :
    ∀ (l : List (MNote α)) (seen : List (MNote α × MNote α)),
      (simulInner n1 l seen).2 =
        ((simulInner n1 l seen).1.map (fun e => (e.note1, e.note2))).reverse ++ seen := by
  intro l
  induction l with
  | nil => intro seen; simp [simulInner]
  | cons n2 rest ih =>
    intro seen
    by_cases h : (n1, n2) ∈ seen ∨ (n2, n1) ∈ seen
    · simp only [simulInner, if_pos h]
      exact ih seen
    · simp only [simulInner, if_neg h]
      rw [ih ((n1, n2) :: seen)]
      simp [mkSimulEdge]

/-- Every edge the inner loop emits was, in either orientation, absent
from the seen-pairs record it started from. -/
theorem simulInner_fresh (n1 : MNote α) :
    ∀ (l : List (MNote α)) (seen : List (MNote α × MNote α)) (e : SimulEdge α),
      e ∈ (simulInner n1 l seen).1 →
      (e.note1, e.note2) ∉ seen ∧ (e.note2, e.note1) ∉ seen := by
  intro l
  induction l with
  | nil => intro seen e he; simp [simulInner] at he
  | cons n2 rest ih =>
    intro seen e he
    by_cases h : (n1, n2) ∈ seen ∨ (n2, n1) ∈ seen
    · rw [simulInner, if_pos h] at he
      exact ih seen e he
    · rw [simulInner, if_neg h] at he
      simp only [List.mem_cons] at he
      rcases he with rfl | he

      · simp only [mkSimulEdge]
        push_neg at h
        exact h
      · obtain ⟨h1, h2⟩ := ih ((n1, n2) :: seen) e he
        exact ⟨fun hc => h1 (List.mem_cons_of_mem _ hc),
               fun hc => h2 (List.mem_cons_of_mem _ hc)⟩

/-- Edges emitted by the inner loop pairwise connect distinct unordered
pairs. -/
theorem simulInner_pairwise (n1 : MNote α) :
    ∀ (l : List (MNote α)) (seen : List (MNote α × MNote α)),
      (simulInner n1 l seen).1.Pairwise (fun a b => ¬ sameUnorderedPair a b) := by
  intro l
  induction l with
  | nil => intro seen; simp [simulInner]
  | cons n2 rest ih =>
    intro seen
    by_cases h : (n1, n2) ∈ seen ∨ (n2, n1) ∈ seen
    · rw [simulInner, if_pos h]
      exact ih seen
    · rw [simulInner, if_neg h]
      refine List.Pairwise.cons ?_ (ih ((n1, n2) :: seen))
      intro e he hsame
      obtain ⟨h1, h2⟩ := simulInner_fresh n1 rest ((n1, n2) :: seen) e he
      rcases hsame with ⟨ha, hb⟩ | ⟨ha, hb⟩
      · simp only [mkSimulEdge] at ha hb
        exact h1 (by rw [← ha, ← hb]; exact List.mem_cons_self _ _)
      · simp only [mkSimulEdge] at ha hb
        exact h2 (by rw [← ha, ← hb]; exact List.mem_cons_self _ _)

/-- Every edge the outer loop emits was, in either orientation, absent
from the seen-pairs record it started from. -/
theorem simulOuter_fresh :
    ∀ (l : List (MNote α)) (seen : List (MNote α × MNote α)) (e : SimulEdge α),
      e ∈ simulOuter l seen →
      (e.note1, e.note2) ∉ seen ∧ (e.note2, e.note1) ∉ seen := by
  intro l
  induction l with
  | nil => intro seen e he; simp [simulOuter] at he
  | cons n1 rest ih =>
    intro seen e he
    rw [simulOuter] at he
    rcases List.mem_append.mp he with he | he
    · exact simulInner_fresh n1 rest seen e he
    · obtain ⟨h1, h2⟩ := ih (simulInner n1 rest seen).2 e he
      rw [simulInner_seen_eq n1 rest seen] at h1 h2
      exact ⟨fun hc => h1 (List.mem_append_right _ hc),
             fun hc => h2 (List.mem_append_right _ hc)⟩

/-- Edges emitted by one run of the pair loops pairwise connect distinct
unordered pairs. -/
theorem simulOuter_pairwise :
    ∀ (l : List (MNote α)) (seen : List (MNote α × MNote α)),
      (simulOuter l seen).Pairwise (fun a b => ¬ sameUnorderedPair a b) := by
  intro l
  induction l with
  | nil => intro seen; simp [simulOuter]
  | cons n1 rest ih =>
    intro seen
    rw [simulOuter]
    rw [List.pairwise_append]
    refine ⟨simulInner_pairwise n1 rest seen, ih _, ?_⟩
    intro e1 he1 e2 he2 hsame
    obtain ⟨h1, h2⟩ := simulOuter_fresh rest (simulInner n1 rest seen).2 e2 he2
    rw [simulInner_seen_eq n1 rest seen] at h1 h2
    have hmem : (e1.note1, e1.note2) ∈
        ((simulInner n1 rest seen).1.map (fun e => (e.note1, e.note2))).reverse ++ seen :=
      List.mem_append_left _ (List.mem_reverse.mpr (List.mem_map.mpr ⟨e1, he1, rfl⟩))
    rcases hsame with ⟨ha, hb⟩ | ⟨ha, hb⟩
    · exact h1 (by rw [← ha, ← hb]; exact hmem)
    · exact h2 (by rw [← ha, ← hb]; exact hmem)

/-- Every emitted edge is `mkSimulEdge` of some two notes. -/
theorem simulInner_shape (n1 : MNote α) :
    ∀ (l : List (MNote α)) (seen : List (MNote α × MNote α)) (e : SimulEdge α),
      e ∈ (simulInner n1 l seen).1 → ∃ b, e = mkSimulEdge n1 b := by
  intro l
  induction l with
  | nil => intro seen e he; simp [simulInner] at he
  | cons n2 rest ih =>
    intro seen e he
    by_cases h : (n1, n2) ∈ seen ∨ (n2, n1) ∈ seen
    · rw [simulInner, if_pos h] at he
      exact ih seen e he
    · rw [simulInner, if_neg h] at he
      rcases List.mem_cons.mp he with rfl | he
      · exact ⟨n2, rfl⟩
      · exact ih ((n1, n2) :: seen) e he

/-- Every edge emitted by the outer loop is `mkSimulEdge` of some two
notes. -/
theorem simulOuter_shape :
    ∀ (l : List (MNote α)) (seen : List (MNote α × MNote α)) (e : SimulEdge α),
      e ∈ simulOuter l seen → ∃ a b, e = mkSimulEdge a b := by
  intro l
  induction l with
  | nil => intro seen e he; simp [simulOuter] at he
  | cons n1 rest ih =>
    intro seen e he
    rcases List.mem_append.mp he with he | he
    · obtain ⟨b, hb⟩ := simulInner_shape n1 rest seen e he
      exact ⟨n1, b, hb⟩
    · exact ih _ e he

end SimulLemmas

/-- Counterexample for C2: for leaves onsetting at 0, 0 (duration 2) and
1 (duration 1), the pair of leaves 0 and 1 is concurrently active in the
Moments at offsets 0 and 1, and one `NoteSimultaneousWithNote` edge is
staged for the pair in EACH of the two Moments — the `simuls` seen-pairs
dict is re-initialised per Moment (source line 867), so the claim's
"exactly one edge in total across all Moments" fails. -/
theorem c2_cross_moment_duplicate :
    ((allMomentEdges (addMomentsToScore
        [(⟨0, 0, 0, 2, 60⟩ : MNote Int), ⟨1, 0, 0, 2, 64⟩, ⟨2, 0, 1, 1, 67⟩])).filter
      (fun e => (e.note1.nid == 0 && e.note2.nid == 1) ||
                (e.note1.nid == 1 && e.note2.nid == 0))).length = 2 := by decide

/-- Claim C2 (amended): within the emission for one Moment, at most one
`NoteSimultaneousWithNote` edge is staged per unordered pair of leaves —
the seen-pairs record is checked in both orientations — while a pair
concurrently active in several Moments receives one edge per such
Moment. -/
theorem c2_pair_unique_within_moment {α : Type} [LinearOrder α]
    (m : Moment α) :
    (noteSimulEdges m).Pairwise (fun e1 e2 => ¬ sameUnorderedPair e1 e2) :=
  simulOuter_pairwise (m.sameOffset ++ m.simultaneous) []

/-- Counterexample for C5: a leaf at absolute position 0 sustained into a
Moment at position 4 whose onsetting leaf sits at the start of a later
measure gets a `sameOffset='True'` edge (both `offset` attributes are 0)
although the absolute positions 0 and 4 differ. -/
theorem c5_flag_relative_not_absolute :
    ((allMomentEdges (addMomentsToScore
        [(⟨0, 0, 0, 8, 60⟩ : MNote Int), ⟨1, 4, 0, 1, 64⟩])).map
      (fun e => (e.note1.nid, e.note2.nid, e.sameOffset))) = [(0, 1, "True")] ∧
    attackOffsetOf (⟨0, 0, 0, 8, 60⟩ : MNote Int) ≠
      attackOffsetOf (⟨1, 4, 0, 1, 64⟩ : MNote Int) := by decide

/-- Claim C5 (amended): on every staged pairwise edge the `sameOffset`
property is the string `'True'` if and only if the two leaves'
measure-relative `offset` attributes are equal — not their absolute
score positions, which can differ when a leaf is sustained across a
measure boundary. -/
theorem c5_flag_iff_note_offsets {α : Type} [LinearOrder α]
    (m : Moment α) (e : SimulEdge α) (he : e ∈ noteSimulEdges m) :
    e.sameOffset = "True" ↔ e.note1.noteOffset = e.note2.noteOffset := by
  obtain ⟨a, b, rfl⟩ := simulOuter_shape _ _ _ he
  by_cases h : a.noteOffset = b.noteOffset
  · simp [mkSimulEdge, h]
  · apply iff_of_false
    · simp [mkSimulEdge, h]
    · simpa [mkSimulEdge] using h

/-- Witness for the amended C5 at the cross-measure example. -/
theorem c5_flag_iff_note_offsets_witness :
    (mkSimulEdge (⟨0, 0, 0, 8, 60⟩ : MNote Int) ⟨1, 4, 0, 1, 64⟩ ∈
      noteSimulEdges (⟨4, [⟨0, 0, 0, 8, 60⟩, ⟨1, 4, 0, 1, 64⟩], []⟩ : Moment Int)) ∧
    ((mkSimulEdge (⟨0, 0, 0, 8, 60⟩ : MNote Int) ⟨1, 4, 0, 1, 64⟩).sameOffset = "True" ↔
      (mkSimulEdge (⟨0, 0, 0, 8, 60⟩ : MNote Int) ⟨1, 4, 0, 1, 64⟩).note1.noteOffset =
        (mkSimulEdge (⟨0, 0, 0, 8, 60⟩ : MNote Int) ⟨1, 4, 0, 1, 64⟩).note2.noteOffset) :=
  ⟨by decide,
    c5_flag_iff_note_offsets
      (⟨4, [⟨0, 0, 0, 8, 60⟩, ⟨1, 4, 0, 1, 64⟩], []⟩ : Moment Int) _ (by decide)⟩

/-- Witness for the amended C9: two distinct notes added under different
modes land in different sets, which stay disjoint. -/
theorem c9_disjoint_when_distinct_witness :
    (⟨0, [], []⟩ : Moment Int).sameOffset = [] ∧
    (⟨0, [], []⟩ : Moment Int).simultaneous = [] ∧
    (([((⟨0, 0, 0, 1, 60⟩ : MNote Int), some true),
       (⟨1, 0, 1, 1, 64⟩, none)].map Prod.fst).Pairwise (· ≠ ·)) ∧
    ¬((⟨0, 0, 0, 1, 60⟩ : MNote Int) ∈
        (applyComponents ⟨0, [], []⟩
          [(⟨0, 0, 0, 1, 60⟩, some true), (⟨1, 0, 1, 1, 64⟩, none)]).sameOffset ∧
      (⟨0, 0, 0, 1, 60⟩ : MNote Int) ∈
        (applyComponents ⟨0, [], []⟩
          [(⟨0, 0, 0, 1, 60⟩, some true), (⟨1, 0, 1, 1, 64⟩, none)]).simultaneous) :=
  ⟨rfl, rfl, by decide,
    c9_disjoint_when_distinct _ _ rfl rfl (by decide) _⟩

/-- Counterexample for C3: a registered callback that returns the
non-null value `2` (which is not the `HIDEFROMDATABASE` sentinel `1`)
does NOT suppress the node: its vertex is staged, contrary to the
claim that any non-null return is treated the same as HIDE.  The
suppression test in `_addNode` is `== self.HIDEFROMDATABASE`
(line 1002). -/
theorem c3_nonsentinel_staged :
    extractNodes [("Note", [fun _ => some 2])] none
        (.node ⟨0, "Note", ["Note"]⟩ []) = ([0], []) ∧
      runCallbacks [("Note", [fun _ => some 2])] ⟨0, "Note", ["Note"]⟩ = some 2 ∧
      (2 : Int) ≠ HIDEFROMDATABASE :=
  ⟨rfl, rfl, by decide⟩

/-- Claim C3 (amended): the first non-null callback return short-circuits
the remaining callbacks for that node, but the node is suppressed (no
vertex, no parent edge, children not visited) exactly when the returned
value equals the `HIDEFROMDATABASE` sentinel `1`; any other non-null
value leaves the node staged normally — vertex, parent edge, and its
children visited (for nodes that are not Spanners or Moments). -/
theorem c3_dispatch_semantics :
    (∀ (cl1 cl2 : List Callback) (obj : SrcObj) (v : Int),
        firstSome cl1 obj = some v → firstSome (cl1 ++ cl2) obj = some v) ∧
    (∀ (cbs : List (String × List Callback)) (parent : Option Nat)
        (obj : SrcObj) (children : List MTree),
        runCallbacks cbs obj = some HIDEFROMDATABASE →
        extractNodes cbs parent (.node obj children) = ([], [])) ∧
    (∀ (cbs : List (String × List Callback)) (parent : Option Nat)
        (obj : SrcObj) (children : List MTree) (v : Int),
        runCallbacks cbs obj = some v → v ≠ HIDEFROMDATABASE →
        "Spanner" ∉ obj.classes → obj.kind ≠ "Moment" →
        extractNodes cbs parent (.node obj children) =
          (obj.oid :: (extractChildNodes cbs (some obj.oid) children).1,
           mkParentEdge parent obj ++ (extractChildNodes cbs (some obj.oid) children).2)) := by
  refine ⟨?_, ?_, ?_⟩
  · intro cl1
    induction cl1 with
    | nil => intro cl2 obj v h; simp [firstSome] at h
    | cons c rest ih =>
      intro cl2 obj v h
      rw [List.cons_append]
      cases hc : c obj with
      | some w =>
        rw [firstSome, hc] at h ⊢
        exact h
      | none =>
        rw [firstSome, hc] at h ⊢
        exact ih cl2 obj v h
  · intro cbs parent obj children h
    rw [extractNodes, addNode, if_pos h]
  · intro cbs parent obj children v h hv hsp hmo
    have hne : runCallbacks cbs obj ≠ some HIDEFROMDATABASE := by
      rw [h]
      intro hc
      exact hv (Option.some.inj hc)
    have hcond : ¬("Spanner" ∈ obj.classes ∨ obj.kind = "Moment") := by
      rintro (hc | hc)
      · exact hsp hc
      · exact hmo hc
    rw [extractNodes, addNode, if_neg hne]
    simp [hcond]

/-- Witness for the amended C3 (third component): a callback returning
the non-sentinel value `5` leaves the node staged with its parent edge
and its child visited. -/
theorem c3_dispatch_semantics_witness :
    runCallbacks [("Note", [fun _ => some 5])] ⟨7, "Note", ["Note"]⟩ = some 5 ∧
    (5 : Int) ≠ HIDEFROMDATABASE ∧
    "Spanner" ∉ (⟨7, "Note", ["Note"]⟩ : SrcObj).classes ∧
    (⟨7, "Note", ["Note"]⟩ : SrcObj).kind ≠ "Moment" ∧
    extractNodes [("Note", [fun _ => some 5])] (some 3)
        (.node ⟨7, "Note", ["Note"]⟩ [.node ⟨8, "Pitch", ["Pitch"]⟩ []]) =
      ((⟨7, "Note", ["Note"]⟩ : SrcObj).oid ::
        (extractChildNodes [("Note", [fun _ => some 5])] (some 7)
          [.node ⟨8, "Pitch", ["Pitch"]⟩ []]).1,
       mkParentEdge (some 3) ⟨7, "Note", ["Note"]⟩ ++
        (extractChildNodes [("Note", [fun _ => some 5])] (some 7)
          [.node ⟨8, "Pitch", ["Pitch"]⟩ []]).2) :=
  ⟨rfl, by decide, by decide, by decide,
    c3_dispatch_semantics.2.2 [("Note", [fun _ => some 5])] (some 3)
      ⟨7, "Note", ["Note"]⟩ [.node ⟨8, "Pitch", ["Pitch"]⟩ []] 5 rfl
      (by decide) (by decide) (by decide)⟩

/-- `range(a, b)` contains every integer in `[a, b)`. -/
theorem mem_intRange {a b n : Int} (h1 : a ≤ n) (h2 : n < b) :
    n ∈ intRange a b := by
  have h : n = a + (((n - a).toNat : Nat) : Int) := by omega
  have hx : (n - a).toNat ∈ List.range (b - a).toNat := List.mem_range.mpr (by omega)
  rw [h, intRange]
  exact List.mem_map_of_mem _ hx

/-- The head of a list is a member. -/
theorem head?_mem {α : Type} {l : List α} {a : α} (h : l.head? = some a) : a ∈ l := by
  cases l with
  | nil => exact Option.noConfusion h
  | cons x t =>
    have hx : x = a := Option.some.inj h
    rw [← hx]
    exact List.mem_cons_self x t

/-- Unfolding the working-set merge one result at a time. -/
theorem filterNR_cons (nodes : List StoreVertex) (v : StoreVertex)
    (rest : List StoreVertex) :
    filterNodesAndRelationships nodes (v :: rest) =
      filterNodesAndRelationships
        (if nodes.any (fun w => w.vid == v.vid) then nodes else nodes ++ [v]) rest := rfl

/-- The working-set merge keeps every vertex already present. -/
theorem filterNR_preserves_nodes :
    ∀ (results nodes : List StoreVertex) (w : StoreVertex),
      w ∈ nodes → w ∈ filterNodesAndRelationships nodes results := by
  intro results
  induction results with
  | nil => intro nodes w h; exact h
  | cons u rest ih =>
    intro nodes w h
    rw [filterNR_cons]
    by_cases hdup : nodes.any (fun x => x.vid == u.vid)
    · rw [if_pos hdup]
      exact ih nodes w h
    · rw [if_neg hdup]
      exact ih (nodes ++ [u]) w (List.mem_append_left _ h)

/-- When distinct vertices never share a remote identity, every merged
result is itself a member of the merged working set. -/
theorem filterNR_mem_of_coherent :
    ∀ (results nodes : List StoreVertex) (v : StoreVertex),
      v ∈ results →
      (∀ w ∈ nodes, w.vid = v.vid → w = v) →
      (∀ w ∈ results, w.vid = v.vid → w = v) →
      v ∈ filterNodesAndRelationships nodes results := by
  intro results
  induction results with
  | nil => intro nodes v h _ _; exact absurd h (List.not_mem_nil v)
  | cons u rest ih =>
    intro nodes v hv hn hr
    rw [filterNR_cons]
    rcases List.mem_cons.mp hv with rfl | hv'
    · by_cases hdup : nodes.any (fun x => x.vid == v.vid)
      · rw [if_pos hdup]
        obtain ⟨w, hw, hwv⟩ := List.any_eq_true.mp hdup
        have heq : w = v := hn w hw (by simpa using hwv)
        exact filterNR_preserves_nodes rest nodes v (heq ▸ hw)
      · rw [if_neg hdup]
        exact filterNR_preserves_nodes rest (nodes ++ [v]) v
          (List.mem_append_right _ (List.mem_singleton.mpr rfl))
    · by_cases hdup : nodes.any (fun x => x.vid == u.vid)
      · rw [if_pos hdup]
        exact ih nodes v hv' hn (fun w hw => hr w (List.mem_cons_of_mem u hw))
      · rw [if_neg hdup]
        refine ih (nodes ++ [u]) v hv' ?_ (fun w hw => hr w (List.mem_cons_of_mem u hw))
        intro w hw hwv
        rcases List.mem_append.mp hw with hw1 | hw1
        · exact hn w hw1 hwv
        · rw [List.mem_singleton.mp hw1] at hwv ⊢
          exact hr u (List.mem_cons_self u rest) hwv

/-- A vertex bound by a clause is a store Measure matching the clause. -/
theorem mem_clauseMatches {store : List StoreVertex} {p : Nat} {n : Int}
    {w : StoreVertex} (h : w ∈ clauseMatches store p n) :
    w ∈ store ∧ w.vtype = "Measure" ∧ w.inParent = some p ∧ w.number = n := by
  obtain ⟨h1, h2⟩ := List.mem_filter.mp h
  simp only [Bool.and_eq_true, beq_iff_eq] at h2
  exact ⟨h1, h2.1.1, h2.1.2, h2.2⟩

/-- Every vertex of a returned fill row comes from the store. -/
theorem fillQueryRow_subset (store : List StoreVertex) :
    ∀ (clauses : List (Nat × Int)) (row : List StoreVertex),
      fillQueryRow store clauses = some row → ∀ w ∈ row, w ∈ store := by
  intro clauses
  induction clauses with
  | nil =>
    intro row h w hw
    rw [fillQueryRow] at h
    cases h
    exact absurd hw (List.not_mem_nil w)
  | cons pn rest ih =>
    intro row h w hw
    obtain ⟨p, n⟩ := pn
    rw [fillQueryRow] at h
    cases hh : (clauseMatches store p n).head? with
    | none =>
      cases hrec : fillQueryRow store rest with
      | none => rw [hh, hrec] at h; exact Option.noConfusion h
      | some row' => rw [hh, hrec] at h; exact Option.noConfusion h
    | some u =>
      cases hrec : fillQueryRow store rest with
      | none => rw [hh, hrec] at h; exact Option.noConfusion h
      | some row' =>
        rw [hh, hrec] at h
        simp only [Option.some.injEq] at h
        subst h
        rcases List.mem_cons.mp hw with rfl | hw'
        · exact (mem_clauseMatches (head?_mem hh)).1
        · exact ih row' hrec w hw'

/-- When every clause has a match, the conjunctive query returns a
row. -/
theorem fillQueryRow_total (store : List StoreVertex) :
    ∀ clauses : List (Nat × Int),
      (∀ pn ∈ clauses, clauseMatches store pn.1 pn.2 ≠ []) →
      ∃ row, fillQueryRow store clauses = some row := by
  intro clauses
  induction clauses with
  | nil => intro _; exact ⟨[], rfl⟩
  | cons pn rest ih =>
    intro hne
    obtain ⟨p, n⟩ := pn
    obtain ⟨row', hrow'⟩ := ih (fun q hq => hne q (List.mem_cons_of_mem _ hq))
    have hcl := hne (p, n) (List.mem_cons_self _ _)
    cases hclm : clauseMatches store p n with
    | nil => exact absurd hclm hcl
    | cons a t =>
      refine ⟨a :: row', ?_⟩
      rw [fillQueryRow, hclm, hrow']
      rfl

/-- Each clause's binding appears in the returned row. -/
theorem fillQueryRow_binds (store : List StoreVertex) :
    ∀ (clauses : List (Nat × Int)) (row : List StoreVertex),
      fillQueryRow store clauses = some row →
      ∀ pn ∈ clauses, ∀ w : StoreVertex,
        (clauseMatches store pn.1 pn.2).head? = some w → w ∈ row := by
  intro clauses
  induction clauses with
  | nil => intro row _ pn hpn; exact absurd hpn (List.not_mem_nil pn)
  | cons qn rest ih =>
    intro row h pn hpn w hw
    obtain ⟨p, n⟩ := qn
    rw [fillQueryRow] at h
    cases hh : (clauseMatches store p n).head? with
    | none =>
      cases hrec : fillQueryRow store rest with
      | none => rw [hh, hrec] at h; exact Option.noConfusion h
      | some row' => rw [hh, hrec] at h; exact Option.noConfusion h
    | some u =>
      cases hrec : fillQueryRow store rest with
      | none => rw [hh, hrec] at h; exact Option.noConfusion h
      | some row' =>
        rw [hh, hrec] at h
        simp only [Option.some.injEq] at h
        subst h
        rcases List.mem_cons.mp hpn with rfl | hpn'
        · have hw' : (clauseMatches store p n).head? = some w := hw
          rw [hw'] at hh
          rw [(Option.some.inj hh).symm]
          exact List.mem_cons_self w row'
        · exact List.mem_cons_of_mem u (ih row' hrec pn hpn' w hw)

/-- Every requested (part, number) combination has its clause. -/
theorem mem_partNumberClauses {parts : List Nat} {numbers : List Int}
    {p : Nat} {n : Int} (hp : p ∈ parts) (hn : n ∈ numbers) :
    (p, n) ∈ partNumberClauses parts numbers := by
  unfold partNumberClauses
  refine List.mem_flatten.mpr ⟨_, List.mem_map.mpr ⟨p, hp, rfl⟩, ?_⟩
  exact List.mem_map.mpr ⟨n, hn, rfl⟩

/-- Each clause requests one of the given parts and numbers. -/
theorem partNumberClauses_mem {parts : List Nat} {numbers : List Int}
    {pn : Nat × Int} (h : pn ∈ partNumberClauses parts numbers) :
    pn.1 ∈ parts ∧ pn.2 ∈ numbers := by
  unfold partNumberClauses at h
  obtain ⟨l, hl, hpn⟩ := List.mem_flatten.mp h
  obtain ⟨p, hp, rfl⟩ := List.mem_map.mp hl
  obtain ⟨n, hn, rfl⟩ := List.mem_map.mp hpn
  exact ⟨hp, hn⟩

/-- A working-set vertex whose `In` edge targets the parent appears in
the rebuilt tree below that parent. -/
theorem rebuildFrom_child (ws : List StoreVertex) (c : StoreVertex)
    (hc : c ∈ ws) (parentId : Nat) (hp : c.inParent = some parentId) (f : Nat) :
    c.vid ∈ rebuildFrom ws (f + 1) parentId := by
  rw [rebuildFrom]
  refine List.mem_flatten.mpr
    ⟨c.vid :: rebuildFrom ws f c.vid, ?_, List.mem_cons_self _ _⟩
  refine List.mem_map.mpr ⟨c, ?_, rfl⟩
  exact List.mem_filter.mpr ⟨hc, by simp [hp]⟩

/-- The rebuild walk recurses below each inserted child. -/
theorem rebuildFrom_step (ws : List StoreVertex) (c : StoreVertex)
    (hc : c ∈ ws) (parentId : Nat) (hp : c.inParent = some parentId)
    (f : Nat) (x : Nat) (hx : x ∈ rebuildFrom ws f c.vid) :
    x ∈ rebuildFrom ws (f + 1) parentId := by
  rw [rebuildFrom]
  refine List.mem_flatten.mpr
    ⟨c.vid :: rebuildFrom ws f c.vid, ?_, List.mem_cons_of_mem _ hx⟩
  refine List.mem_map.mpr ⟨c, ?_, rfl⟩
  exact List.mem_filter.mpr ⟨hc, by simp [hp]⟩

/-- More fuel never loses rebuilt identities. -/
theorem rebuildFrom_mono (ws : List StoreVertex) :
    ∀ (f1 f2 : Nat), f1 ≤ f2 → ∀ (pid x : Nat),
      x ∈ rebuildFrom ws f1 pid → x ∈ rebuildFrom ws f2 pid := by
  intro f1
  induction f1 with
  | zero => intro f2 _ pid x hx; simp [rebuildFrom] at hx
  | succ f ih =>
    intro f2 hle pid x hx
    obtain ⟨g, rfl⟩ : ∃ g, f2 = g + 1 := ⟨f2 - 1, by omega⟩
    rw [rebuildFrom] at hx ⊢
    obtain ⟨l, hl, hxl⟩ := List.mem_flatten.mp hx
    obtain ⟨c, hcmem, rfl⟩ := List.mem_map.mp hl
    rcases List.mem_cons.mp hxl with rfl | hxl'
    · exact List.mem_flatten.mpr ⟨c.vid :: rebuildFrom ws g c.vid,
        List.mem_map.mpr ⟨c, hcmem, rfl⟩, List.mem_cons_self _ _⟩
    · exact List.mem_flatten.mpr ⟨c.vid :: rebuildFrom ws g c.vid,
        List.mem_map.mpr ⟨c, hcmem, rfl⟩,
        List.mem_cons_of_mem _ (ih g (by omega) c.vid x hxl')⟩

/-- Claim C4: for a reconstruction whose matched containers span sequence
numbers `m_min` to `m_max`, when the store realises every (part, number)
combination in that contiguous range (the single conjunctive fill query
is all-or-nothing: a missing combination yields zero rows and an
IndexError), at most one Measure exists per (part, number), and remote
identities are identities, then every container whose number lies in
`[m_min, m_max]` — including containers that matched no query leaf — is
fetched by the fill query, merged into the WorkingSet, and appears in
the tree rebuilt from the score root. -/
theorem c4_sibling_fill_complete
    (store ws : List StoreVertex) (parts : List Nat)
    (v partV : StoreVertex) (p scoreId : Nat)
    (hv : v ∈ store) (hm : v.vtype = "Measure") (hp : v.inParent = some p)
    (hpp : p ∈ parts)
    (h1 : listMin (matchedMeasureNumbers ws) ≤ v.number)
    (h2 : v.number ≤ listMax (matchedMeasureNumbers ws))
    (hcomplete : ∀ q ∈ parts,
        ∀ n ∈ intRange (listMin (matchedMeasureNumbers ws))
          (listMax (matchedMeasureNumbers ws) + 1),
        ∃ w ∈ store, w.vtype = "Measure" ∧ w.inParent = some q ∧ w.number = n)
    (huniq : ∀ w1 ∈ store, ∀ w2 ∈ store, w1.vtype = "Measure" → w2.vtype = "Measure" →
        w1.inParent = w2.inParent → w1.number = w2.number → w1 = w2)
    (hid : ∀ w1 ∈ ws ++ store, ∀ w2 ∈ ws ++ store, w1.vid = w2.vid → w1 = w2)
    (hpart : partV ∈ ws) (hpartId : partV.vid = p)
    (hpartIn : partV.inParent = some scoreId) :
    ∃ ws', siblingFill store ws parts = some ws' ∧
      v.vid ∈ ws'.map (fun w => w.vid) ∧
      v.vid ∈ rebuiltTreeIds ws' scoreId := by
  have hne : ∀ pn ∈ partNumberClauses parts
      (intRange (listMin (matchedMeasureNumbers ws))
        (listMax (matchedMeasureNumbers ws) + 1)),
      clauseMatches store pn.1 pn.2 ≠ [] := by
    intro pn hpn
    obtain ⟨hq, hn⟩ := partNumberClauses_mem hpn
    obtain ⟨w, hw, hw1, hw2, hw3⟩ := hcomplete pn.1 hq pn.2 hn
    intro h0
    have hwm : w ∈ clauseMatches store pn.1 pn.2 :=
      List.mem_filter.mpr ⟨hw, by simp [hw1, hw2, hw3]⟩
    rw [h0] at hwm
    exact absurd hwm (List.not_mem_nil w)
  obtain ⟨row, hrow⟩ := fillQueryRow_total store _ hne
  have hvcl : v ∈ clauseMatches store p v.number :=
    List.mem_filter.mpr ⟨hv, by simp [hm, hp]⟩
  have hhead : (clauseMatches store p v.number).head? = some v := by
    cases hcl : clauseMatches store p v.number with
    | nil => rw [hcl] at hvcl; exact absurd hvcl (List.not_mem_nil v)
    | cons a t =>
      have ha : a ∈ clauseMatches store p v.number := by
        rw [hcl]
        exact List.mem_cons_self a t
      obtain ⟨ha1, ha2, ha3, ha4⟩ := mem_clauseMatches ha
      have hav : a = v := huniq a ha1 v hv ha2 hm (by rw [ha3, hp]) ha4
      show some a = some v
      rw [hav]
  have hpnmem : (p, v.number) ∈ partNumberClauses parts
      (intRange (listMin (matchedMeasureNumbers ws))
        (listMax (matchedMeasureNumbers ws) + 1)) :=
    mem_partNumberClauses hpp (mem_intRange h1 (by omega))
  have hvrow : v ∈ row :=
    fillQueryRow_binds store _ row hrow (p, v.number) hpnmem v hhead
  have hrowsub := fillQueryRow_subset store _ row hrow
  have hvws' : v ∈ filterNodesAndRelationships ws row := by
    refine filterNR_mem_of_coherent row ws v hvrow ?_ ?_
    · intro w hw hwv
      exact hid w (List.mem_append_left _ hw) v (List.mem_append_right _ hv) hwv
    · intro w hw hwv
      exact hid w (List.mem_append_right _ (hrowsub w hw)) v
        (List.mem_append_right _ hv) hwv
  have hpws' : partV ∈ filterNodesAndRelationships ws row :=
    filterNR_preserves_nodes row ws partV hpart
  refine ⟨filterNodesAndRelationships ws row, ?_,
    List.mem_map.mpr ⟨v, hvws', rfl⟩, ?_⟩
  · simp only [siblingFill, fillMeasureQuery]
    rw [hrow]
  · have hlen : 1 ≤ (filterNodesAndRelationships ws row).length := by
      refine List.length_pos.mpr ?_
      intro h0
      rw [h0] at hpws'
      exact absurd hpws' (List.not_mem_nil partV)
    refine List.mem_cons_of_mem _ ?_
    have hs1 : v.vid ∈ rebuildFrom (filterNodesAndRelationships ws row) 1 partV.vid := by
      rw [hpartId]
      exact rebuildFrom_child _ v hvws' p hp 0
    have hs2 : v.vid ∈ rebuildFrom (filterNodesAndRelationships ws row) 2 scoreId :=
      rebuildFrom_step _ partV hpws' scoreId hpartIn 1 v.vid hs1
    exact rebuildFrom_mono _ 2 ((filterNodesAndRelationships ws row).length + 1)
      (by omega) scoreId v.vid hs2

/-- Witness for C4: matched leaves in the measures numbered 3 and 5 of
part 7 (itself attached to score 1) make the unmatched measure numbered
4 (remote id 104) appear in the merged working set and in the tree
rebuilt from the score root. -/
theorem c4_sibling_fill_complete_witness :
    ∃ ws', siblingFill
        [(⟨103, "Measure", some 7, 3⟩ : StoreVertex), ⟨104, "Measure", some 7, 4⟩,
         ⟨105, "Measure", some 7, 5⟩]
        [(⟨7, "Part", some 1, 0⟩ : StoreVertex), ⟨103, "Measure", some 7, 3⟩,
         ⟨105, "Measure", some 7, 5⟩]
        [7] = some ws' ∧
      (⟨104, "Measure", some 7, 4⟩ : StoreVertex).vid ∈ ws'.map (fun w => w.vid) ∧
      (⟨104, "Measure", some 7, 4⟩ : StoreVertex).vid ∈ rebuiltTreeIds ws' 1 :=
  c4_sibling_fill_complete
    [(⟨103, "Measure", some 7, 3⟩ : StoreVertex), ⟨104, "Measure", some 7, 4⟩,
     ⟨105, "Measure", some 7, 5⟩]
    [(⟨7, "Part", some 1, 0⟩ : StoreVertex), ⟨103, "Measure", some 7, 3⟩,
     ⟨105, "Measure", some 7, 5⟩]
    [7] (⟨104, "Measure", some 7, 4⟩ : StoreVertex) ⟨7, "Part", some 1, 0⟩ 7 1
    (by decide) rfl rfl (by decide) (by decide) (by decide) (by decide)
    (by decide) (by decide) (by decide) rfl rfl

/-- Every edge reference in a successfully built batch comes from a staged
edge of the batch, both endpoints resolved through the reference map. -/
theorem buildBatch_ok_mem (nodeRefs : List (Nat × Nat)) :
    ∀ (subset : List StagedEdge) (l : List (Nat × String × Nat)),
      buildBatch nodeRefs subset = .ok l →
      ∀ er ∈ l, ∃ e ∈ subset,
        lookupRef nodeRefs e.startNodeHash = some er.1 ∧
        lookupRef nodeRefs e.endNodeHash = some er.2.2 ∧
        er.2.1 = e.relationship := by
  intro subset
  induction subset with
  | nil =>
    intro l h er her
    rw [buildBatch] at h
    cases h
    exact absurd her (List.not_mem_nil er)
  | cons e rest ih =>
    intro l h er her
    rw [buildBatch] at h
    cases h1 : lookupRef nodeRefs e.startNodeHash with
    | none => rw [h1] at h; simp at h
    | some r1 =>
      cases h2 : lookupRef nodeRefs e.endNodeHash with
      | none => rw [h1, h2] at h; simp at h
      | some r2 =>
        rw [h1, h2] at h
        cases h3 : buildBatch nodeRefs rest with
        | error u => rw [h3] at h; simp at h
        | ok l' =>
          rw [h3] at h
          simp only [Except.ok.injEq] at h
          subst h
          rcases List.mem_cons.mp her with rfl | her'
          · exact ⟨e, List.mem_cons_self e rest, h1, h2, rfl⟩
          · obtain ⟨e', he', hh⟩ := ih l' h3 er her'
            exact ⟨e', List.mem_cons_of_mem e he', hh⟩

/-- A batch containing an edge with an unresolved endpoint raises
(`KeyError`) instead of building. -/
theorem buildBatch_error_of_unresolved (nodeRefs : List (Nat × Nat)) :
    ∀ subset : List StagedEdge,
      (∃ e ∈ subset, lookupRef nodeRefs e.startNodeHash = none ∨
        lookupRef nodeRefs e.endNodeHash = none) →
      buildBatch nodeRefs subset = .error () := by
  intro subset
  induction subset with
  | nil =>
    rintro ⟨e, he, _⟩
    exact absurd he (List.not_mem_nil e)
  | cons e rest ih =>
    rintro ⟨e', he', hbad⟩
    rw [buildBatch]
    rcases List.mem_cons.mp he' with rfl | he'
    · cases h1 : lookupRef nodeRefs e'.startNodeHash with
      | none => rfl
      | some r1 =>
        cases h2 : lookupRef nodeRefs e'.endNodeHash with
        | none => rfl
        | some r2 =>
          rcases hbad with hb | hb
          · rw [h1] at hb; exact absurd hb (by simp)
          · rw [h2] at hb; exact absurd hb (by simp)
    · cases h1 : lookupRef nodeRefs e.startNodeHash with
      | none => rfl
      | some r1 =>
        cases h2 : lookupRef nodeRefs e.endNodeHash with
        | none => rfl
        | some r2 =>
          rw [ih ⟨e', he', hbad⟩]

/-- Dropping more of a list keeps membership in the smaller drop. -/
theorem drop_subset_drop (l : List StagedEdge) {m n : Nat} (h : n ≤ m) :
    ∀ x, x ∈ l.drop m → x ∈ l.drop n := by
  intro x hx
  have heq : l.drop m = (l.drop n).drop (m - n) := by
    rw [List.drop_drop]
    congr 1
    omega
  rw [heq] at hx
  exact List.drop_subset _ _ hx

/-- Soundness of the edge-commit loop: every edge reference in a
submitted batch is a staged edge with both endpoints resolved through
the reference map. -/
theorem writeLoop_sound (nodeRefs : List (Nat × Nat)) (edges : List StagedEdge) :
    ∀ (fuel idx : Nat) (batch : List (Nat × String × Nat)) (er : Nat × String × Nat),
      batch ∈ (writeLoop nodeRefs edges fuel idx).1 → er ∈ batch →
      ∃ e ∈ edges, lookupRef nodeRefs e.startNodeHash = some er.1 ∧
        lookupRef nodeRefs e.endNodeHash = some er.2.2 ∧
        er.2.1 = e.relationship := by
  intro fuel
  induction fuel with
  | zero => intro idx batch er hb _; simp [writeLoop] at hb
  | succ f ih =>
    intro idx batch er hb her
    simp only [writeLoop] at hb
    by_cases hemp : (getEdgeBatch edges idx 100).isEmpty
    · rw [if_pos hemp] at hb
      exact absurd hb (List.not_mem_nil batch)
    · rw [if_neg hemp] at hb
      cases h3 : buildBatch nodeRefs (getEdgeBatch edges idx 100) with
      | error u =>
        rw [h3] at hb
        exact absurd hb (List.not_mem_nil batch)
      | ok b =>
        rw [h3] at hb
        rcases List.mem_cons.mp hb with rfl | hb
        · obtain ⟨e, he, hh⟩ := buildBatch_ok_mem nodeRefs _ batch h3 er her
          refine ⟨e, ?_, hh⟩
          exact List.drop_subset _ _ (List.take_subset _ _ he)
        · exact ih (idx + 100) batch er hb her

/-- Completeness of the edge-commit loop: with enough fuel, a run that
does not raise has resolved both endpoints of every staged edge it
covers. -/
theorem writeLoop_complete (nodeRefs : List (Nat × Nat)) (edges : List StagedEdge) :
    ∀ (fuel idx : Nat),
      (edges.drop (idx - 1)).length < 99 * fuel →
      (writeLoop nodeRefs edges fuel idx).2 = false →
      ∀ e ∈ edges.drop (idx - 1),
        lookupRef nodeRefs e.startNodeHash ≠ none ∧
        lookupRef nodeRefs e.endNodeHash ≠ none := by
  intro fuel
  induction fuel with
  | zero => intro idx hlen _ e _; exact absurd hlen (by omega)
  | succ f ih =>
    intro idx hlen hfalse e he
    simp only [writeLoop] at hfalse
    by_cases hemp : (getEdgeBatch edges idx 100).isEmpty
    · exfalso
      have h0 : (edges.drop (idx - 1)).take 100 = [] := by
        have := List.isEmpty_iff.mp hemp
        simpa [getEdgeBatch] using this
      rcases List.take_eq_nil_iff.mp h0 with h | h
      · exact absurd h (by omega)
      · rw [h] at he
        exact absurd he (List.not_mem_nil e)
    · rw [if_neg hemp] at hfalse
      cases h3 : buildBatch nodeRefs (getEdgeBatch edges idx 100) with
      | error u => rw [h3] at hfalse; simp at hfalse
      | ok b =>
        rw [h3] at hfalse
        simp only [] at hfalse
        rw [← List.take_append_drop 100 (edges.drop (idx - 1))] at he
        rcases List.mem_append.mp he with hm | hm
        · have hres : ¬(lookupRef nodeRefs e.startNodeHash = none ∨
              lookupRef nodeRefs e.endNodeHash = none) := by
            intro hbad
            have herr := buildBatch_error_of_unresolved nodeRefs
              (getEdgeBatch edges idx 100) ⟨e, by simpa [getEdgeBatch] using hm, hbad⟩
            rw [herr] at h3
            exact Except.noConfusion h3
          push_neg at hres
          exact hres
        · have hlen1 : 100 < (edges.drop (idx - 1)).length := by
            have hne : (edges.drop (idx - 1)).drop 100 ≠ [] := by
              intro h0
              rw [h0] at hm
              exact absurd hm (List.not_mem_nil e)
            have hpos := List.length_pos.mpr hne
            rw [List.length_drop] at hpos
            omega
          have he2 : e ∈ edges.drop (idx + 100 - 1) := by
            rw [List.drop_drop] at hm
            exact drop_subset_drop edges (show idx + 100 - 1 ≤ idx - 1 + 100 by omega) e hm
          refine ih (idx + 100) ?_ hfalse e he2
          rw [List.length_drop] at hlen hlen1 ⊢
          omega

/-- Claim C6: when some staged edge's endpoint has no remote reference in
the id-to-remoteRef map, the edge-writing step raises (the `KeyError` of
`self.nodeRefs[...]`), and every edge reference that was submitted to the
remote store before the failure had both endpoints resolved through the
map — no edge referencing an uncommitted endpoint is ever submitted. -/
theorem c6_commit_ordering (nodeRefs : List (Nat × Nat)) (edges : List StagedEdge)
    (h : ∃ e ∈ edges, lookupRef nodeRefs e.startNodeHash = none ∨
          lookupRef nodeRefs e.endNodeHash = none) :
    (writeEdgesToDatabase nodeRefs edges).2 = true ∧
    ∀ batch ∈ (writeEdgesToDatabase nodeRefs edges).1, ∀ er ∈ batch,
      ∃ e ∈ edges, lookupRef nodeRefs e.startNodeHash = some er.1 ∧
        lookupRef nodeRefs e.endNodeHash = some er.2.2 ∧
        er.2.1 = e.relationship := by
  constructor
  · by_contra hnot
    have hf2 : (writeEdgesToDatabase nodeRefs edges).2 = false := by
      cases hx : (writeEdgesToDatabase nodeRefs edges).2
      · rfl
      · exact absurd hx hnot
    obtain ⟨e, he, hbad⟩ := h
    have hres := writeLoop_complete nodeRefs edges (edges.length + 1) 0
      (by simp only [Nat.zero_sub, List.drop_zero]; omega) hf2 e
      (by simpa using he)
    rcases hbad with hb | hb
    · exact hres.1 hb
    · exact hres.2 hb
  · intro batch hb er her
    exact writeLoop_sound nodeRefs edges _ _ batch er hb her

/-- Witness for C6: one staged edge whose end hash 2 has no remote
reference makes the commit raise, and nothing unresolved is submitted. -/
theorem c6_commit_ordering_witness :
    (∃ e ∈ [(⟨1, "MomentInNote", 2⟩ : StagedEdge)],
        lookupRef [(1, 501)] e.startNodeHash = none ∨
        lookupRef [(1, 501)] e.endNodeHash = none) ∧
    ((writeEdgesToDatabase [(1, 501)] [⟨1, "MomentInNote", 2⟩]).2 = true ∧
      ∀ batch ∈ (writeEdgesToDatabase [(1, 501)] [⟨1, "MomentInNote", 2⟩]).1,
        ∀ er ∈ batch, ∃ e ∈ [(⟨1, "MomentInNote", 2⟩ : StagedEdge)],
          lookupRef [(1, 501)] e.startNodeHash = some er.1 ∧
          lookupRef [(1, 501)] e.endNodeHash = some er.2.2 ∧
          er.2.1 = e.relationship) :=
  ⟨by decide, c6_commit_ordering [(1, 501)] [⟨1, "MomentInNote", 2⟩] (by decide)⟩

/-- A nonempty string has positive length. -/
theorem strLength_pos (p : String) (h : p ≠ "") : 0 < p.length := by
  cases p with
  | mk l =>
    cases l with
    | nil => exact absurd rfl h
    | cons c cs => simp [String.length]

/-- Inserting an element into a joined list adds its length plus one
separator. -/
theorem joinSep_length_insert (sep p : String) :
    ∀ (D C : List String), D ++ C ≠ [] →
      (joinSep sep (D ++ [p] ++ C)).length =
        (joinSep sep (D ++ C)).length + sep.length + p.length := by
  intro D
  induction D with
  | nil =>
    intro C hC
    simp only [List.nil_append] at hC ⊢
    cases C with
    | nil => exact absurd rfl hC
    | cons c cs =>
      simp only [List.singleton_append]
      have h1 : joinSep sep (p :: c :: cs) = p ++ sep ++ joinSep sep (c :: cs) := rfl
      rw [h1, String.length_append, String.length_append]
      omega
  | cons d ds ih =>
    intro C hC
    by_cases hds : ds ++ C = []
    · obtain ⟨hds1, hC1⟩ := List.append_eq_nil.mp hds
      subst hds1
      subst hC1
      have h1 : joinSep sep ((d :: ([] : List String)) ++ [p] ++ ([] : List String)) =
          d ++ sep ++ p := rfl
      have h2 : joinSep sep ((d :: ([] : List String)) ++ ([] : List String)) = d := rfl
      rw [h1, h2, String.length_append, String.length_append]
    · have h1 : joinSep sep ((d :: ds) ++ [p] ++ C) =
          d ++ sep ++ joinSep sep (ds ++ [p] ++ C) := by
        cases hsh : ds ++ [p] ++ C with
        | nil => exact absurd hsh (by simp)
        | cons u us =>
          rw [show (d :: ds) ++ [p] ++ C = d :: (ds ++ [p] ++ C) from rfl, hsh]
          rfl
      have h2 : joinSep sep ((d :: ds) ++ C) = d ++ sep ++ joinSep sep (ds ++ C) := by
        cases hsh : ds ++ C with
        | nil => exact absurd hsh hds
        | cons u us =>
          rw [show (d :: ds) ++ C = d :: (ds ++ C) from rfl, hsh]
          rfl
      rw [h1, h2, String.length_append, String.length_append, String.length_append,
        String.length_append, ih C hds]
      omega

/-- The dedup fold distributes over append. -/
theorem setDedupAcc_append (acc l1 l2 : List String) :
    setDedupAcc acc (l1 ++ l2) = setDedupAcc (setDedupAcc acc l1) l2 := by
  simp [setDedupAcc, List.foldl_append]

/-- Membership in the dedup fold. -/
theorem mem_setDedupAcc :
    ∀ (l acc : List String) (x : String),
      x ∈ setDedupAcc acc l ↔ x ∈ acc ∨ x ∈ l := by
  intro l
  induction l with
  | nil => intro acc x; simp [setDedupAcc]
  | cons s t ih =>
    intro acc x
    have h : setDedupAcc acc (s :: t) =
        setDedupAcc (if s ∈ acc then acc else acc ++ [s]) t := rfl
    rw [h, ih]
    by_cases hs : s ∈ acc
    · rw [if_pos hs]
      constructor
      · rintro (h1 | h1)
        · exact Or.inl h1
        · exact Or.inr (List.mem_cons_of_mem s h1)
      · rintro (h1 | h1)
        · exact Or.inl h1
        · rcases List.mem_cons.mp h1 with rfl | h1
          · exact Or.inl hs
          · exact Or.inr h1
    · rw [if_neg hs]
      simp only [List.mem_append, List.mem_singleton, List.mem_cons]
      tauto

/-- Folding the same suffix over two accumulators that agree on the
suffix's members appends the same fresh tail to both. -/
theorem setDedupAcc_common :
    ∀ (B acc1 acc2 : List String),
      (∀ s ∈ B, (s ∈ acc1 ↔ s ∈ acc2)) →
      ∃ C, setDedupAcc acc1 B = acc1 ++ C ∧ setDedupAcc acc2 B = acc2 ++ C := by
  intro B
  induction B with
  | nil =>
    intro acc1 acc2 _
    exact ⟨[], by simp [setDedupAcc], by simp [setDedupAcc]⟩
  | cons s t ih =>
    intro acc1 acc2 hiff
    have h1 : setDedupAcc acc1 (s :: t) =
        setDedupAcc (if s ∈ acc1 then acc1 else acc1 ++ [s]) t := rfl
    have h2 : setDedupAcc acc2 (s :: t) =
        setDedupAcc (if s ∈ acc2 then acc2 else acc2 ++ [s]) t := rfl
    by_cases hs : s ∈ acc1
    · have hs2 : s ∈ acc2 := (hiff s (List.mem_cons_self s t)).mp hs
      rw [h1, h2, if_pos hs, if_pos hs2]
      exact ih acc1 acc2 (fun x hx => hiff x (List.mem_cons_of_mem s hx))
    · have hs2 : s ∉ acc2 := fun hc => hs ((hiff s (List.mem_cons_self s t)).mpr hc)
      rw [h1, h2, if_neg hs, if_neg hs2]
      obtain ⟨C, hC1, hC2⟩ := ih (acc1 ++ [s]) (acc2 ++ [s]) (fun x hx => by
        simp only [List.mem_append, List.mem_singleton]
        rw [hiff x (List.mem_cons_of_mem s hx)])
      refine ⟨s :: C, ?_, ?_⟩
      · rw [hC1, List.append_assoc]
        rfl
      · rw [hC2, List.append_assoc]
        rfl

/-- Appending a relationship strictly lengthens the match clause. -/
theorem matchStr_grows (q : QueryState) (r : String) :
    (matchStrOf q).length < (matchStrOf (addRelationship q r)).length := by
  have e : (addRelationship q r).matchL = q.matchL ++ [r] := rfl
  unfold matchStrOf
  rw [e]
  cases hm : q.matchL with
  | nil =>
    have h1 : joinSep ",\n" ([] ++ [r]) = r := rfl
    rw [h1]
    have h6 : ("match\n").length = 6 := rfl
    simp [String.length_append, h6]
  | cons a t =>
    have h1 : ((a :: t) : List String).isEmpty = false := rfl
    have h2 : (((a :: t) ++ [r]) : List String).isEmpty = false := rfl
    rw [h1, h2]
    simp only [Bool.false_eq_true, if_false]
    have h3 := joinSep_length_insert ",\n" r (a :: t) [] (by simp)
    rw [List.append_nil, List.append_nil] at h3
    have h4 : (",\n").length = 2 := rfl
    rw [String.length_append, String.length_append, String.length_append,
      String.length_append, h3, h4]
    omega

/-- Appending a fresh filter strictly lengthens the where clause. -/
theorem whereStr_grows (q : QueryState) (f : QFilter) (hf : f ∉ q.whereL) :
    (whereStrOf q).length < (whereStrOf (addComparisonFilter q f)).length := by
  have e : (addComparisonFilter q f).whereL = q.whereL ++ [f] := by
    simp [addComparisonFilter, hf]
  unfold whereStrOf
  rw [e]
  cases hm : q.whereL with
  | nil =>
    have h1 : joinSep "\nand " (([] ++ [f]).map QFilter.render) = f.render := rfl
    rw [h1]
    have h6 : ("where\n").length = 6 := rfl
    simp [String.length_append, h6]
  | cons a t =>
    have h1 : ((a :: t) : List QFilter).isEmpty = false := rfl
    have h2 : (((a :: t) ++ [f]) : List QFilter).isEmpty = false := rfl
    rw [h1, h2]
    simp only [Bool.false_eq_true, if_false]
    have hmap : ((a :: t) ++ [f]).map QFilter.render =
        (a :: t).map QFilter.render ++ [f.render] := by
      rw [List.map_append]
      rfl
    rw [hmap]
    have h3 := joinSep_length_insert "\nand " f.render ((a :: t).map QFilter.render) []
      (by simp)
    rw [List.append_nil, List.append_nil] at h3
    have h4 : ("\nand ").length = 5 := rfl
    rw [String.length_append, String.length_append, String.length_append,
      String.length_append, h3, h4]
    omega

/-- Adding a fresh, nonempty return property strictly lengthens the
return clause. -/
theorem returnStr_grows (q : QueryState) (p : String)
    (hp1 : p ∉ q.returnsL) (hp2 : p ≠ "*") (hp3 : p ≠ "") :
    (returnStrOf q).length < (returnStrOf (addReturns q [p])).length := by
  have e2 : (addReturns q [p]).returnsL = q.returnsL ++ [p] := rfl
  have e3 : (addReturns q [p]).limitReturnToWhere = q.limitReturnToWhere := rfl
  unfold returnStrOf
  rw [e2, e3]
  have hstarmem : ∀ s ∈ (if q.limitReturnToWhere then ([] : List String) else ["*"]),
      s = "*" := by
    intro s hsm
    split at hsm
    · exact absurd hsm (List.not_mem_nil s)
    · simpa using hsm
  have hpD : p ∉ setDedupAcc [] q.returnsL := by
    intro hc
    rcases (mem_setDedupAcc q.returnsL [] p).mp hc with h | h
    · exact absurd h (List.not_mem_nil p)
    · exact hp1 h
  have hsingle : setDedupAcc (setDedupAcc [] q.returnsL) [p] =
      setDedupAcc [] q.returnsL ++ [p] := by
    show (if p ∈ setDedupAcc [] q.returnsL then setDedupAcc [] q.returnsL
      else setDedupAcc [] q.returnsL ++ [p]) = setDedupAcc [] q.returnsL ++ [p]
    rw [if_neg hpD]
  have hprops1 : setDedup (q.returnsL ++
      (if q.limitReturnToWhere then ([] : List String) else ["*"])) =
      setDedupAcc (setDedupAcc [] q.returnsL)
        (if q.limitReturnToWhere then ([] : List String) else ["*"]) := by
    simp only [setDedup]
    rw [setDedupAcc_append]
  have hprops2 : setDedup ((q.returnsL ++ [p]) ++
      (if q.limitReturnToWhere then ([] : List String) else ["*"])) =
      setDedupAcc (setDedupAcc [] q.returnsL ++ [p])
        (if q.limitReturnToWhere then ([] : List String) else ["*"]) := by
    simp only [setDedup]
    rw [setDedupAcc_append, setDedupAcc_append, hsingle]
  rw [hprops1, hprops2]
  obtain ⟨C, hC1, hC2⟩ := setDedupAcc_common
      (if q.limitReturnToWhere then ([] : List String) else ["*"])
      (setDedupAcc [] q.returnsL) (setDedupAcc [] q.returnsL ++ [p]) (by
    intro s hsm
    have hss := hstarmem s hsm
    subst hss
    simp only [List.mem_append, List.mem_singleton]
    constructor
    · exact Or.inl
    · rintro (h | h)
      · exact h
      · exact absurd h.symm hp2)
  rw [hC1, hC2]
  by_cases hDC : setDedupAcc [] q.returnsL ++ C = []
  · obtain ⟨hD1, hC0⟩ := List.append_eq_nil.mp hDC
    rw [hD1, hC0]
    have hp := strLength_pos p hp3
    have h1 : joinSep ", " (([] : List String) ++ []) = "" := rfl
    have h2 : joinSep ", " ((([] : List String) ++ [p]) ++ []) = p := rfl
    rw [h1, h2]
    have h0 : ("" : String).length = 0 := rfl
    simp only [String.length_append]
    omega
  · have h3 := joinSep_length_insert ", " p (setDedupAcc [] q.returnsL) C hDC
    have hplen := strLength_pos p hp3
    have hassoc : (setDedupAcc [] q.returnsL ++ [p]) ++ C =
        setDedupAcc [] q.returnsL ++ [p] ++ C := by
      rw [List.append_assoc]
    rw [hassoc]
    simp only [String.length_append]
    rw [h3]
    omega

/-- Claim C7 (amended): compiling twice with no intervening mutator yields
character-for-character identical text (the cache is returned); each of
`addRelationship`, `addComparisonFilter`, `addReturns` resets the cached
pattern; and recompiling after a mutator call produces different text
whenever the call added a new clause — a relationship is always appended,
a comparison filter only when no equal filter is present, a return
property only when it is new, nonempty and not the wildcard (a duplicate
filter or duplicate return property invalidates the cache but leaves the
compiled text unchanged). -/
theorem c7_cache_semantics :
    (∀ (q : QueryState) (t : String) (q' : QueryState),
        assemblePattern q = some (t, q') → assemblePattern q' = some (t, q')) ∧
    (∀ (q : QueryState) (r : String), (addRelationship q r).pattern = none) ∧
    (∀ (q : QueryState) (f : QFilter), (addComparisonFilter q f).pattern = none) ∧
    (∀ (q : QueryState) (ps : List String), (addReturns q ps).pattern = none) ∧
    (∀ (q : QueryState) (s r : String) (t1 : String) (q1 : QueryState)
        (t2 : String) (q2 : QueryState),
        q.pattern = none → q.start = some s →
        assemblePattern q = some (t1, q1) →
        assemblePattern (addRelationship q r) = some (t2, q2) → t1 ≠ t2) ∧
    (∀ (q : QueryState) (s : String) (f : QFilter) (t1 : String) (q1 : QueryState)
        (t2 : String) (q2 : QueryState),
        q.pattern = none → q.start = some s → f ∉ q.whereL →
        assemblePattern q = some (t1, q1) →
        assemblePattern (addComparisonFilter q f) = some (t2, q2) → t1 ≠ t2) ∧
    (∀ (q : QueryState) (s p : String) (t1 : String) (q1 : QueryState)
        (t2 : String) (q2 : QueryState),
        q.pattern = none → q.start = some s →
        p ∉ q.returnsL → p ≠ "*" → p ≠ "" →
        assemblePattern q = some (t1, q1) →
        assemblePattern (addReturns q [p]) = some (t2, q2) → t1 ≠ t2) := by
  have hbuild : ∀ (q : QueryState) (s : String), q.pattern = none → q.start = some s →
      assemblePattern q = some (buildText s q, { q with pattern := some (buildText s q) }) := by
    intro q s hq hs
    simp only [assemblePattern, hq, hs]
  have hlen : ∀ (s t1 t2 : String) (qa qb : QueryState),
      (matchStrOf qa).length + (whereStrOf qa).length + (returnStrOf qa).length +
          qa.order.length <
        (matchStrOf qb).length + (whereStrOf qb).length + (returnStrOf qb).length +
          qb.order.length →
      buildText s qa = t1 → buildText s qb = t2 → t1 ≠ t2 := by
    intro s t1 t2 qa qb hlt h1 h2 heq
    rw [← h1, ← h2] at heq
    have := congrArg String.length heq
    rw [buildText, buildText] at this
    simp only [String.length_append] at this
    omega
  refine ⟨?_, fun _ _ => rfl, fun _ _ => rfl, fun _ _ => rfl, ?_, ?_, ?_⟩
  · intro q t q' h
    cases hq : q.pattern with
    | some p =>
      rw [assemblePattern, hq] at h
      obtain ⟨h1, h2⟩ := Prod.mk.inj (Option.some.inj h)
      subst h1
      subst h2
      rw [assemblePattern, hq]
    | none =>
      cases hs : q.start with
      | none => rw [assemblePattern, hq, hs] at h; exact Option.noConfusion h
      | some s =>
        rw [hbuild q s hq hs] at h
        obtain ⟨h1, h2⟩ := Prod.mk.inj (Option.some.inj h)
        subst h1
        subst h2
        rfl
  · intro q s r t1 q1 t2 q2 hq hs h1 h2
    rw [hbuild q s hq hs] at h1
    rw [hbuild (addRelationship q r) s rfl hs] at h2
    obtain ⟨ht1, -⟩ := Prod.mk.inj (Option.some.inj h1)
    obtain ⟨ht2, -⟩ := Prod.mk.inj (Option.some.inj h2)
    refine hlen s t1 t2 q (addRelationship q r) ?_ ht1 ht2
    have hm := matchStr_grows q r
    have e1 : whereStrOf (addRelationship q r) = whereStrOf q := rfl
    have e2 : returnStrOf (addRelationship q r) = returnStrOf q := rfl
    have e3 : (addRelationship q r).order = q.order := rfl
    rw [e1, e2, e3]
    omega
  · intro q s f t1 q1 t2 q2 hq hs hf h1 h2
    rw [hbuild q s hq hs] at h1
    rw [hbuild (addComparisonFilter q f) s rfl hs] at h2
    obtain ⟨ht1, -⟩ := Prod.mk.inj (Option.some.inj h1)
    obtain ⟨ht2, -⟩ := Prod.mk.inj (Option.some.inj h2)
    refine hlen s t1 t2 q (addComparisonFilter q f) ?_ ht1 ht2
    have hm := whereStr_grows q f hf
    have e1 : matchStrOf (addComparisonFilter q f) = matchStrOf q := rfl
    have e2 : returnStrOf (addComparisonFilter q f) = returnStrOf q := rfl
    have e3 : (addComparisonFilter q f).order = q.order := rfl
    rw [e1, e2, e3]
    omega
  · intro q s p t1 q1 t2 q2 hq hs hp1 hp2 hp3 h1 h2
    rw [hbuild q s hq hs] at h1
    rw [hbuild (addReturns q [p]) s rfl hs] at h2
    obtain ⟨ht1, -⟩ := Prod.mk.inj (Option.some.inj h1)
    obtain ⟨ht2, -⟩ := Prod.mk.inj (Option.some.inj h2)
    refine hlen s t1 t2 q (addReturns q [p]) ?_ ht1 ht2
    have hm := returnStr_grows q p hp1 hp2 hp3
    have e1 : matchStrOf (addReturns q [p]) = matchStrOf q := rfl
    have e2 : whereStrOf (addReturns q [p]) = whereStrOf q := rfl
    have e3 : (addReturns q [p]).order = q.order := rfl
    rw [e1, e2, e3]
    omega

/-- Counterexample for C7: calling `addComparisonFilter` with a filter
equal to one already present resets the cache (`pattern = None`) but
appends nothing (`if filt not in self.where`), so the next compilation
produces character-for-character the same text — the claim that every
such call "produces different text" fails. -/
theorem c7_duplicate_filter_same_text :
    ((assemblePattern (addComparisonFilter
        ((assemblePattern (QueryState.mk (some "start n=node(3)\n") "order by ID(n)\n"
            [] [QFilter.mk "n.midi" "<" (FVal.num 60)] [] false none)).getD
          ("", QueryState.mk none "" [] [] [] false none)).2
        (QFilter.mk "n.midi" "<" (FVal.num 60)))).map Prod.fst) =
    ((assemblePattern (QueryState.mk (some "start n=node(3)\n") "order by ID(n)\n"
        [] [QFilter.mk "n.midi" "<" (FVal.num 60)] [] false none)).map Prod.fst) ∧
    (addComparisonFilter
        ((assemblePattern (QueryState.mk (some "start n=node(3)\n") "order by ID(n)\n"
            [] [QFilter.mk "n.midi" "<" (FVal.num 60)] [] false none)).getD
          ("", QueryState.mk none "" [] [] [] false none)).2
        (QFilter.mk "n.midi" "<" (FVal.num 60))).pattern = none :=
  ⟨rfl, rfl⟩

/-- Witness for the amended C7: adding a genuinely new comparison filter
to a compiled query makes the recompiled text differ. -/
theorem c7_cache_semantics_witness :
    ((assemblePattern (QueryState.mk (some "start n=node(3)\n") "order by ID(n)\n"
        [] [] [] false none)).getD
      ("", QueryState.mk none "" [] [] [] false none)).1 ≠
    ((assemblePattern (addComparisonFilter
        (QueryState.mk (some "start n=node(3)\n") "order by ID(n)\n" [] [] [] false none)
        (QFilter.mk "n.midi" "<" (FVal.num 60)))).getD
      ("", QueryState.mk none "" [] [] [] false none)).1 :=
  c7_cache_semantics.2.2.2.2.2.1
    (QueryState.mk (some "start n=node(3)\n") "order by ID(n)\n" [] [] [] false none)
    "start n=node(3)\n" (QFilter.mk "n.midi" "<" (FVal.num 60)) _ _ _ _
    rfl rfl (by decide) rfl rfl

/-- Counterexample for C8: a call whose first invocation raises a
transient connectivity error and whose second invocation would succeed
surfaces the failure — `_serverCall`'s retry handler is commented out, so
nothing is retried. -/
theorem c8_no_retry_counterexample :
    serverCall (fun n =>
        if n = 0 then (Except.error "SocketError" : Except String Int) else .ok 7) =
      .error "SocketError" ∧
    (fun n =>
        if n = 0 then (Except.error "SocketError" : Except String Int) else .ok 7) 1 =
      .ok 7 :=
  ⟨rfl, rfl⟩

/-- Claim C8 (amended): every remote-store call on the query-execution
path is attempted exactly once — `Query.results` submits the compiled
pattern a single time through `_cypherQuery`, `_serverCall` returns its
function's first invocation outcome, and a connectivity failure of the
single attempt surfaces immediately to the caller with no retry and no
backoff. -/
theorem c8_single_attempt {β : Type} (q : QueryState)
    (execute : String → Except String β) (t : String) (q' : QueryState)
    (func : Nat → Except String β) (err : String)
    (h : assemblePattern q = some (t, q')) (he : execute t = .error err) :
    results q execute = execute t ∧ serverCall func = func 0 ∧
    results q execute = .error err := by
  have hr : results q execute = execute t := by
    simp only [results, h, cypherQuery]
  exact ⟨hr, rfl, by rw [hr, he]⟩

/-- Witness for the amended C8 at a concrete anchored query and a
transiently failing store. -/
theorem c8_single_attempt_witness :
    results (QueryState.mk (some "start n=node(3)\n") "order by ID(n)\n"
        [] [] [] false none)
      (fun _ => (Except.error "SocketError" : Except String Nat)) =
      (fun _ => (Except.error "SocketError" : Except String Nat))
        ((assemblePattern (QueryState.mk (some "start n=node(3)\n") "order by ID(n)\n"
            [] [] [] false none)).getD
          ("", QueryState.mk none "" [] [] [] false none)).1 ∧
    serverCall (fun n =>
        if n = 0 then (Except.error "SocketError" : Except String Nat) else .ok 7) =
      (fun n =>
        if n = 0 then (Except.error "SocketError" : Except String Nat) else .ok 7) 0 ∧
    results (QueryState.mk (some "start n=node(3)\n") "order by ID(n)\n"
        [] [] [] false none)
      (fun _ => (Except.error "SocketError" : Except String Nat)) =
      .error "SocketError" :=
  c8_single_attempt
    (QueryState.mk (some "start n=node(3)\n") "order by ID(n)\n" [] [] [] false none)
    (fun _ => (Except.error "SocketError" : Except String Nat)) _ _
    (fun n =>
      if n = 0 then (Except.error "SocketError" : Except String Nat) else .ok 7)
    "SocketError" rfl rfl

end MusicNet
